import Mathlib

set_option autoImplicit false

/-
Verification of the content-acquisition and chunking pipeline of
`ingest-for-rag` (src/ingest_for_rag).  Python text is modelled as
`List Char`; each Python string operation used by the sources is embedded
as an executable Lean function, and the pipeline functions are translated
statement by statement from the Python code they embed.
-/

namespace IngestForRag

/-- Text is modelled as a list of characters. -/
abbrev Str := List Char

/-- Coercion from a Lean string literal to the character-list model. -/
def str (s : String) : Str := s.toList

/-- Python `str.isspace` character test (the whitespace set of CPython:
ASCII whitespace, the C1 controls `\x1c`-`\x1f` and `\x85`, and the
Unicode space separators). -/
def pyIsSpace (c : Char) : Bool :=
  let n := c.toNat
  n = 0x20 || n = 0x09 || n = 0x0a || n = 0x0b || n = 0x0c || n = 0x0d ||
  n = 0x1c || n = 0x1d || n = 0x1e || n = 0x1f || n = 0x85 || n = 0xa0 ||
  n = 0x1680 || (0x2000 <= n && n <= 0x200a) ||
  n = 0x2028 || n = 0x2029 || n = 0x202f || n = 0x205f || n = 0x3000

/-- Python `str.lower`, restricted to ASCII letters.  Every string the
sources feed to `lower` is only compared against fixed ASCII-lowercase
tables, so the non-ASCII case mappings never influence any property
proved below. -/
def pyLowerChar (c : Char) : Char :=
  if 'A' ≤ c && c ≤ 'Z' then Char.ofNat (c.toNat + 32) else c

/-- Python `str.lower` applied characterwise. -/
def pyLower (s : Str) : Str := s.map pyLowerChar

/-- Python `str.lstrip()` (no argument): drop leading whitespace. -/
def pyLstrip (s : Str) : Str := s.dropWhile pyIsSpace

/-- Python `str.rstrip()` (no argument): drop trailing whitespace. -/
def pyRstrip (s : Str) : Str := (s.reverse.dropWhile pyIsSpace).reverse

/-- Python `str.strip()` (no argument). -/
def pyStrip (s : Str) : Str := pyRstrip (pyLstrip s)

/-- Python `sub in s` substring test. -/
def pyContains (s sub : Str) : Bool :=
  sub.isPrefixOf s ||
    match s with
    | [] => false
    | _ :: t => pyContains t sub

/-- The Python line-break characters recognised by `str.splitlines`. -/
def isLineBreak (c : Char) : Bool :=
  let n := c.toNat
  n = 0x0a || n = 0x0d || n = 0x0b || n = 0x0c || n = 0x1c || n = 0x1d ||
  n = 0x1e || n = 0x85 || n = 0x2028 || n = 0x2029

/-- Worker for `pySplitLines`; `acc` holds the current line reversed. -/
def splitLinesGo : Str → Str → List Str
  | acc, [] => if acc.isEmpty then [] else [acc.reverse]
  | acc, '\r' :: '\n' :: rest => acc.reverse :: splitLinesGo [] rest
  | acc, c :: rest =>
    if isLineBreak c then acc.reverse :: splitLinesGo [] rest
    else splitLinesGo (c :: acc) rest

/-- Python `str.splitlines()`: split at any line break (with `\r\n` as a
single break); no trailing empty line is produced. -/
def pySplitLines (s : Str) : List Str := splitLinesGo [] s

/-- Python `"\n".join(lines)`. -/
def pyJoinNL : List Str → Str
  | [] => []
  | [l] => l
  | l :: l' :: ls => l ++ '\n' :: pyJoinNL (l' :: ls)

/-- Python `s[a:b]` for `a ≤ b ≤ len s` (the only shape the sources use). -/
def pySlice (s : Str) (a b : Nat) : Str := (s.drop a).take (b - a)

/-- Python `s.endswith(suffix)`. -/
def pyEndsWith (s suffix : Str) : Bool := suffix.isSuffixOf s

/-- Worker for `pyRfind`: try every position of `s` (position `i` is the
offset of the current suffix) and keep the rightmost admissible match. -/
def rfindGo (sub : Str) (a b : Nat) : Str → Nat → Option Nat
  | [], i =>
    if a ≤ i && i + sub.length ≤ b && sub.isPrefixOf [] then some i else none
  | c :: t, i =>
    match rfindGo sub a b t (i + 1) with
    | some j => some j
    | none =>
      if a ≤ i && i + sub.length ≤ b && sub.isPrefixOf (c :: t) then some i
      else none

/-- Python `s.rfind(sub, a, b)` for `b ≤ len s`: the largest `i` with
`a ≤ i`, `i + len sub ≤ b` and `sub` occurring at `i`; Python's `-1`
result is `none`. -/
def pyRfind (s sub : Str) (a b : Nat) : Option Nat := rfindGo sub a b s 0

/-- The noise substrings of `text_utils.clean_nav_footer_noise`
(lines 63-67). -/
def noiseSubs : List Str :=
  [str "home page", str "search", str "navigation", str "issues",
   str "github", str "slack", str "was this page helpful", str "assistant",
   str "responses are generated", str "copy", str "ask ai", str "⌘",
   str "version "]

/-- A line dropped for matching a boilerplate substring: Python
`any(x in low for x in [...])` with `low = line.lower().strip()`. -/
def isNoiseLine (line : Str) : Bool :=
  noiseSubs.any (fun x => pyContains (pyStrip (pyLower line)) x)

/-- A line the first loop of `clean_nav_footer_noise` keeps: non-blank
(`line.strip()` truthy) and not boilerplate. -/
def keepLine (line : Str) : Bool := !(pyStrip line).isEmpty && !isNoiseLine line

/-- Worker for `collapseDups` with `prev` the last kept line. -/
def collapseAfter (prev : Str) : List Str → List Str
  | [] => []
  | l :: ls => if l = prev then collapseAfter prev ls else l :: collapseAfter l ls

/-- Second loop of `clean_nav_footer_noise` (lines 71-74): keep `l` when
`not out or out[-1] != l`, dropping consecutive duplicate lines. -/
def collapseDups : List Str → List Str
  | [] => []
  | l :: ls => l :: collapseAfter l ls

/-- `text_utils.clean_nav_footer_noise` (lines 53-76). -/
def clean_nav_footer_noise (text : Str) : Str :=
  pyJoinNL (collapseDups ((pySplitLines text).filter keepLine))

/-- The paragraph separator `"\n\n"` searched by `chunk_text`. -/
def nn : Str := ['\n', '\n']

/-- The `cut` computation of `chunk_text` (lines 90-93): candidate window
end, last paragraph break in the window, and the
`cut == -1 or cut <= start + 200` fixup back to the hard limit. -/
def chunkCut (s : Str) (maxChars start : Nat) : Nat :=
  let e := min (start + maxChars) s.length
  match pyRfind s nn start e with
  | none => e
  | some c => if c ≤ start + 200 then e else c

/-- The next window start of `chunk_text` (lines 99-103).  In Python
`new_start = cut - overlap` over the integers, replaced by
`start + max_chars` when `new_start <= start`; the branch below is that
test rewritten without integer subtraction, and the final
`start = max(0, new_start)` is the identity on both branches. -/
def chunkNext (s : Str) (maxChars overlap start : Nat) : Nat :=
  let cut := chunkCut s maxChars start
  if cut ≤ start + overlap then start + maxChars else cut - overlap

/-- The `while start < n` loop of `chunk_text` (lines 89-103), with
explicit fuel (the Python loop has none; `chunk_text` passes fuel that
provably suffices whenever `max_chars ≥ 1`, and `none` marks the fuel
running out — which for `max_chars = 0` mirrors a genuinely diverging
Python loop). -/
def chunkTextLoop : Nat → Str → Nat → Nat → Nat → Option (List Str)
  | 0, _, _, _, _ => none
  | fuel + 1, s, maxChars, overlap, start =>
    if start < s.length then
      let cut := chunkCut s maxChars start
      let chunk := pyStrip (pySlice s start cut)
      match chunkTextLoop fuel s maxChars overlap (chunkNext s maxChars overlap start) with
      | none => none
      | some cs => some (if chunk.isEmpty then cs else chunk :: cs)
    else some []

/-- `text_utils.chunk_text` (lines 79-106). -/
def chunk_text (s : Str) (maxChars overlap : Nat) : List Str :=
  let t := pyStrip s
  if t.isEmpty then []
  else (chunkTextLoop (t.length + 1) t maxChars overlap 0).getD []

/-- Three backticks, the fence marker. -/
def bt3 : Str := ['`', '`', '`']

/-- Python `line.strip().startswith("```")` (text_utils line 118). -/
def isFenceLine (line : Str) : Bool := bt3.isPrefixOf (pyStrip line)

/-- The line scan of `chunk_with_code_blocks` (lines 115-142), with the
emitted chunks returned in order (Python appends them to `chunks`). -/
def cwcbLoop (maxChars overlap : Nat) : List Str → List Str → Bool → List Str
  | [], buffer, in_code =>
    if buffer.isEmpty then []
    else
      let text := pyStrip (pyJoinNL buffer)
      if text.isEmpty then []
      else if in_code then [text]
      else chunk_text text maxChars overlap
  | line :: rest, buffer, in_code =>
    if isFenceLine line then
      if in_code then
        let block := pyStrip (pyJoinNL (buffer ++ [line]))
        (if block.isEmpty then [] else [block]) ++ cwcbLoop maxChars overlap rest [] false
      else
        (if buffer.isEmpty then []
         else
           let prose := pyStrip (pyJoinNL buffer)
           if prose.isEmpty then [] else chunk_text prose maxChars overlap) ++
          cwcbLoop maxChars overlap rest [line] true
    else cwcbLoop maxChars overlap rest (buffer ++ [line]) in_code

/-- `text_utils.chunk_with_code_blocks` (lines 109-145): clean first,
then scan lines with the fence state machine. -/
def chunk_with_code_blocks (s : Str) (maxChars overlap : Nat) : List Str :=
  cwcbLoop maxChars overlap (pySplitLines (clean_nav_footer_noise s)) [] false

/-- `text_utils.chunk_docs` (lines 148-149). -/
def chunk_docs (s : Str) : List Str := chunk_with_code_blocks s 1200 150

/-- `text_utils.chunk_code` (lines 152-153). -/
def chunk_code (s : Str) : List Str := chunk_with_code_blocks s 800 100

/-- Opening curly brace, written via its code point. -/
def lbrace : Char := Char.ofNat 0x7b

namespace Formatter

/-- `formatter.JUNK_PATTERNS` (lines 3-7); each pattern is a literal
string with no regex metacharacter, so `re.search(p, low)` is the
substring test. -/
def JUNK_PATTERNS : List Str :=
  [str "home page", str "search", str "navigation", str "issues",
   str "github", str "slack", str "was this page helpful", str "copy",
   str "ask ai", str "⌘", str "assistant", str "responses are generated",
   str "#mythic community", str "on this page"]

/-- Python `any(re.search(p, low) for p in JUNK_PATTERNS)` with
`low = line.lower().strip()` (formatter lines 13-16). -/
def isJunk (line : Str) : Bool :=
  JUNK_PATTERNS.any (fun p => pyContains (pyStrip (pyLower line)) p)

/-- The duplicate test `prev and prev.strip() == line.strip()` of
`formatter.clean_lines` line 18; falsy both for `prev = None` and for an
empty previous line. -/
def prevDup (prev : Option Str) (line : Str) : Bool :=
  match prev with
  | none => false
  | some p => !p.isEmpty && pyStrip p == pyStrip line

/-- The loop of `formatter.clean_lines` (lines 11-21); `prev` is the last
kept line, `None` before any line is kept. -/
def cleanGo (prev : Option Str) : List Str → List Str
  | [] => []
  | line :: ls =>
    if (pyStrip line).isEmpty then cleanGo prev ls
    else if isJunk line then cleanGo prev ls
    else if prevDup prev line then cleanGo prev ls
    else line :: cleanGo (some line) ls

/-- `formatter.clean_lines` (lines 9-22). -/
def clean_lines (lines : List Str) : List Str := cleanGo none lines

/-- `formatter.detect_code_lang` (lines 63-76); Python computes
`b = block.strip().lower()`. -/
def detect_code_lang (block : Str) : Str :=
  let b := pyLower (pyStrip block)
  if [lbrace].isPrefixOf b || (str "[").isPrefixOf b ||
      (pyContains b (str ":") && pyContains b [lbrace]) then str "json"
  else if (str "$").isPrefixOf b || pyContains b (str " sudo ") then str "bash"
  else if pyContains b (str "func ") || pyContains b (str "package main") then
    str "go"
  else if pyContains b (str "def ") || pyContains b (str "import ") ||
      pyContains b (str "async def") then str "python"
  else if (str "from ").isPrefixOf b || (str "run ").isPrefixOf b ||
      (str "cmd ").isPrefixOf b then str "dockerfile"
  else str "text"

/-- The line scan of `formatter.wrap_code_blocks` (lines 80-101).  The
source appends a placeholder fence to `out` when a block opens and
overwrites it with the labelled fence (`out[-1] = "```lang"`) when the
block closes or is flushed as unterminated; nothing else is appended to
`out` in between, so the translation emits the labelled fence directly at
close/flush time.  An open block that never received a line leaves the
bare placeholder behind, exactly as the source's final `if buffer:` does
nothing for an empty buffer. -/
def wrapLoop : List Str → List Str → Bool → List Str
  | [], buffer, in_code =>
    if !buffer.isEmpty then
      (bt3 ++ detect_code_lang (pyJoinNL buffer)) :: buffer ++ [bt3]
    else if in_code then [bt3]
    else []
  | line :: rest, buffer, in_code =>
    if isFenceLine line then
      if in_code then
        ((bt3 ++ detect_code_lang (pyJoinNL buffer)) :: buffer ++ [bt3]) ++
          wrapLoop rest [] false
      else wrapLoop rest [] true
    else if in_code then wrapLoop rest (buffer ++ [line]) in_code
    else line :: wrapLoop rest buffer in_code

/-- `formatter.wrap_code_blocks` (lines 78-102). -/
def wrap_code_blocks (text : Str) : Str :=
  pyJoinNL (wrapLoop (pySplitLines text) [] false)

end Formatter

namespace Frontmatter

/-- Python `text.count("```")` (frontmatter line 36): non-overlapping
occurrences, found scanning left to right. -/
def countTriple : Str → Nat
  | '`' :: '`' :: '`' :: t => 1 + countTriple t
  | _ :: t => countTriple t
  | [] => 0

/-- One pass of `re.sub(r"```[\s]*\{", "```json\n{", text)` (frontmatter
line 39).  A match is three backticks, a run of whitespace, then an
opening brace; since the whitespace class cannot match the brace, the
regex engine's backtracking reduces to taking the maximal whitespace run.
Matches are replaced left to right and scanning resumes after the
replaced span, as `re.sub` does. -/
def subJsonLabel (s : Str) : Str :=
  match s with
  | [] => []
  | c :: t =>
    if bt3.isPrefixOf (c :: t) then
      let rest := (t.drop 2).dropWhile pyIsSpace
      if rest.head? = some lbrace then
        str "```json\n" ++ lbrace :: subJsonLabel (rest.drop 1)
      else c :: subJsonLabel t
    else c :: subJsonLabel t
termination_by s.length
decreasing_by
  · have h1 : ((t.drop 2).dropWhile pyIsSpace).length ≤ (t.drop 2).length :=
      (List.dropWhile_sublist _).length_le
    simp only [List.length_cons, List.length_drop] at *
    omega
  · simp only [List.length_cons]; omega
  · simp only [List.length_cons]; omega

/-- Whether the pattern of `subJsonLabel` matches anywhere. -/
def hasJsonSite (s : Str) : Bool :=
  match s with
  | [] => false
  | c :: t =>
    (bt3.isPrefixOf (c :: t) &&
      ((t.drop 2).dropWhile pyIsSpace).head? = some lbrace) ||
    hasJsonSite t

/-- `frontmatter.wrap_code_blocks` (lines 33-40): append one closing
fence when the fence count is odd, then label obvious JSON fences. -/
def wrap_code_blocks (text : Str) : Str :=
  let balanced := if countTriple text % 2 ≠ 0 then text ++ str "\n```" else text
  subJsonLabel balanced

end Frontmatter

/-- `embeddings.embed_ollama` (lines 12-43): one embedding request per
text.  `embedOne` abstracts the body of the `try` block (HTTP POST,
status check, extraction of the `embedding` field), with `none` for any
raised exception or missing/empty field — in which case the loop appends
`None` for that item and goes on with the remaining items. -/
def embed_ollama {V : Type} (embedOne : Str → Option V) : List Str → List (Option V)
  | [] => []
  | t :: ts => embedOne t :: embed_ollama embedOne ts

/-- One batch of the ingestion loop of `cli.main` (lines 164-181), reduced
to the data that reaches `col.upsert`: the `docs` entry and the embedding
of each chunk text of the batch.  The Python loop zips `batch` with
`embs`, appends an id/doc/meta row for every pair — with no test on
`emb` — and passes the unfiltered `embs` as the `embeddings=` argument of
`col.upsert`; the random `uuid` ids, the JSONL row and the metadata dict
repeat the same per-entry structure and are not modelled. -/
def process_batch {V : Type} (embedOne : Str → Option V) (batch : List Str) :
    List (Str × Option V) :=
  batch.zip (embed_ollama embedOne batch)

/-- The filter of `storage.build_chroma` (lines 36-41) — a function
`cli.main` never calls: rows whose embedding is `None` are skipped before
anything is handed to the upsert. -/
def build_chroma_pairs {V : Type} : List (Str × Option V) → List (Str × V)
  | [] => []
  | (_, none) :: rs => build_chroma_pairs rs
  | (t, some v) :: rs => (t, v) :: build_chroma_pairs rs

/-- Split a glob bracket-class body at its first closing bracket; `none`
when the class is never closed. -/
def splitAtClose : Str → Option (Str × Str)
  | [] => none
  | ']' :: r => some ([], r)
  | c :: r =>
    match splitAtClose r with
    | none => none
    | some (body, rest) => some (c :: body, rest)

/-- Parse a glob character class (the pattern after `[`): negation flag,
class body and remaining pattern.  As in `fnmatch.translate`, a leading
`!` negates and a closing bracket directly after `[` or `[!` is literal;
`none` when no closing bracket follows (the `[` is then literal). -/
def parseClass (p : Str) : Option (Bool × Str × Str) :=
  let negq : Bool × Str :=
    match p with
    | '!' :: q => (true, q)
    | _ => (false, p)
  match negq.2 with
  | ']' :: r =>
    match splitAtClose r with
    | none => none
    | some (body, rest) => some (negq.1, ']' :: body, rest)
  | q =>
    match splitAtClose q with
    | none => none
    | some (body, rest) => some (negq.1, body, rest)

/-- Membership of a character in a glob class body; `x-y` is a range, a
dash at either end is literal (as in the character classes
`fnmatch.translate` emits). -/
def classMatch : Str → Char → Bool
  | a :: '-' :: b :: rest, c => (a ≤ c && c ≤ b) || classMatch rest c
  | a :: rest, c => a = c || classMatch rest c
  | [], _ => false

/-- Shell-glob matching as compiled by `fnmatch.translate`, with explicit
fuel making the recursion structural: `*` matches any (possibly empty)
sequence of characters, `?` exactly one, `[...]` a character class, any
other character itself; the whole pattern must match the whole name (the
compiled regex is `\Z`-anchored with DOTALL).  Every step shortens the
pattern or the name, so the fuel `globMatch` passes never runs out; a
zero-fuel call answers `false`. -/
def globMatchF : Nat → Str → Str → Bool
  | 0, _, _ => false
  | fuel + 1, p, s =>
    match p, s with
    | [], s => s.isEmpty
    | '*' :: p', s =>
      globMatchF fuel p' s ||
        (match s with
         | [] => false
         | _ :: s' => globMatchF fuel ('*' :: p') s')
    | '?' :: p', s =>
      (match s with
       | [] => false
       | _ :: s' => globMatchF fuel p' s')
    | '[' :: p', s =>
      (match parseClass p' with
       | some (neg, body, rest) =>
         match s with
         | [] => false
         | c :: s' => (neg != classMatch body c) && globMatchF fuel rest s'
       | none =>
         match s with
         | [] => false
         | c :: s' => (c = '[') && globMatchF fuel p' s')
    | c :: p', s =>
      (match s with
       | [] => false
       | d :: s' => (c = d) && globMatchF fuel p' s')

/-- Shell-glob matching with sufficient fuel. -/
def globMatch (p s : Str) : Bool := globMatchF (p.length + s.length + 1) p s

/-- Python `fnmatch.fnmatch(name, pattern)` on posix, where
`os.path.normcase` is the identity. -/
def fnmatch (name pattern : Str) : Bool := globMatch pattern name

/-- Python truthiness of an optional list: `None` and `[]` are falsy. -/
def truthy {α : Type} (o : Option (List α)) : Bool := !(o.getD []).isEmpty

/-- `crawl_docs.should_keep_url` (lines 75-86): the exclude globs are
tried first and any match returns `False`; then, when the include list is
truthy, at least one include glob must match; otherwise keep.  Every test
is `fnmatch(u.lower(), g.lower())`.  The Python `if exclude_globs:` guard
is subsumed by `any` over the defaulted list, which is false for `None`
and `[]`. -/
def should_keep_url (u : Str) (include_globs exclude_globs : Option (List Str)) :
    Bool :=
  if (exclude_globs.getD []).any (fun g => fnmatch (pyLower u) (pyLower g)) then
    false
  else if truthy include_globs then
    (include_globs.getD []).any (fun g => fnmatch (pyLower u) (pyLower g))
  else true

/-- A parsed URL: the `scheme`, `netloc` and remainder (path, query, …)
of `urllib.parse.urlparse`.  URLs are modelled pre-parsed, and `toStr`
renders the full URL string used by the glob and extension tests. -/
structure Url where
  scheme : Str
  netloc : Str
  rest : Str
deriving DecidableEq

/-- The full URL string of a parsed URL. -/
def Url.toStr (u : Url) : Str := u.scheme ++ str "://" ++ u.netloc ++ u.rest

/-- `crawl_docs.same_domain` (lines 16-19): equal netloc, and the
candidate's scheme must be `http` or `https`; the root's scheme is not
consulted. -/
def same_domain (root candidate : Url) : Bool :=
  root.netloc == candidate.netloc &&
    (candidate.scheme == str "http" || candidate.scheme == str "https")

/-- Newline canonicalisation of `normalize_ws` line 47 (`replace` of
`\r\n` and then of `\r` by `\n`; one scan with the pair case first is the
same, the first replacement having removed every `\r\n`). -/
def crlfToLf : Str → Str
  | [] => []
  | '\r' :: '\n' :: t => '\n' :: crlfToLf t
  | '\r' :: t => '\n' :: crlfToLf t
  | c :: t => c :: crlfToLf t

/-- Regex substitution `[ \t]+\n` to `\n` (normalize_ws line 48): a
maximal run of blanks and tabs directly before a newline is dropped. -/
def stripWsNl (s : Str) : Str :=
  match s with
  | [] => []
  | c :: t =>
    if (c = ' ' || c = '\t') &&
        (t.dropWhile (fun d => d = ' ' || d = '\t')).head? = some '\n' then
      '\n' :: stripWsNl (t.dropWhile (fun d => d = ' ' || d = '\t')).tail
    else c :: stripWsNl t
termination_by s.length
decreasing_by
  · have h1 : (t.dropWhile (fun d => d = ' ' || d = '\t')).length ≤ t.length :=
      (List.dropWhile_sublist _).length_le
    have h2 := List.length_tail (t.dropWhile (fun d => d = ' ' || d = '\t'))
    simp only [List.length_cons]
    omega
  · simp only [List.length_cons]; omega

/-- Regex substitution `\n{3,}` to `\n\n` (normalize_ws line 49): a
maximal run of at least three newlines collapses to two. -/
def collapseNl (s : Str) : Str :=
  match s with
  | [] => []
  | c :: t =>
    if c = '\n' && 3 ≤ 1 + (t.takeWhile (fun d => d = '\n')).length then
      '\n' :: '\n' :: collapseNl (t.dropWhile (fun d => d = '\n'))
    else c :: collapseNl t
termination_by s.length
decreasing_by
  · have : (t.dropWhile (fun d => d = '\n')).length ≤ t.length :=
      (List.dropWhile_sublist _).length_le
    simp only [List.length_cons]
    omega
  · simp only [List.length_cons]; omega

/-- `text_utils.normalize_ws` (lines 45-50). -/
def normalize_ws (s : Str) : Str :=
  pyStrip (collapseNl (stripWsNl (crlfToLf s)))

/-- `text_utils.BINARY_EXTS` (lines 8-12). -/
def BINARY_EXTS : List Str :=
  [str ".png", str ".jpg", str ".jpeg", str ".gif", str ".bmp", str ".svg",
   str ".ico", str ".webp", str ".pdf", str ".zip", str ".tar", str ".gz",
   str ".7z", str ".mp3", str ".mp4", str ".mov", str ".avi", str ".mkv",
   str ".exe", str ".dll", str ".so"]

/-- `text_utils.DOC_EXTS` (line 14). -/
def DOC_EXTS : List Str :=
  [str ".md", str ".markdown", str ".html", str ".htm", str ".txt"]

/-- Python `Path(p).suffix`: the extension of the final path component
(trailing slashes ignored) — the part from the component's last dot,
provided that dot is neither the component's first nor its last
character. -/
def pathSuffix (p : Str) : Str :=
  let q := (p.reverse.dropWhile (fun c => c = '/')).reverse
  let name := (q.reverse.takeWhile (fun c => c ≠ '/')).reverse
  match pyRfind name ['.'] 0 name.length with
  | some i => if 0 < i && i + 1 < name.length then name.drop i else []
  | none => []

/-- `text_utils.is_probably_binary` (lines 23-25). -/
def is_probably_binary (path : Str) : Bool :=
  BINARY_EXTS.contains (pathSuffix (pyLower path))

/-- External collaborators of `crawl_docs.crawl`: the network GET of
line 121 (`none` models any raised exception; otherwise the
`Content-Type` header and the decoded body `safe_decode(r.content)` —
that decoding itself never raises), and the BeautifulSoup-based helpers:
`extract_title`, `extract_visible_text`, and link discovery (lines
153-158: each `href`, resolved with `urljoin` against the page's own URL
and stripped of its fragment). -/
structure Net where
  fetch : Url → Option (Str × Str)
  extract_title : Str → Option Str
  extract_visible_text : Str → Str
  links : Url → Str → List Url

/-- One record appended by `crawl` (lines 144-150); the on-disk `path` of
the raw dump is filesystem output and not modelled. -/
structure PageRecord where
  url : Url
  kind : Str
  text : Str
  title : Option Str
deriving DecidableEq

section Crawl

variable (net : Net) (robots_ok : Url → Bool)
variable (include_globs exclude_globs : Option (List Str))
variable (start : Url) (maxPages : Nat)

/-- The `while queue and len(visited) < max_pages` loop of `crawl`
(lines 107-163), with explicit fuel making the model total.  Besides the
accumulated page records, the model returns the trace of URLs for which
the network GET of line 121 was issued.  Failures anywhere in the `try`
block are collapsed into the fetch result (`none`): they produce no
record and no new frontier entries, like the source's `except: pass`. -/
def crawlLoop : Nat → List Url → List Url → List PageRecord → List Url →
    List PageRecord × List Url
  | 0, _, _, records, fetched => (records, fetched)
  | _ + 1, [], _, records, fetched => (records, fetched)
  | fuel + 1, url :: queue, visited, records, fetched =>
    if maxPages ≤ visited.length then (records, fetched)
    else if url ∈ visited then
      crawlLoop fuel queue visited records fetched
    else
      let visited' := visited ++ [url]
      if !same_domain start url then crawlLoop fuel queue visited' records fetched
      else if !robots_ok url then crawlLoop fuel queue visited' records fetched
      else if !should_keep_url url.toStr include_globs exclude_globs then
        crawlLoop fuel queue visited' records fetched
      else
        let fetched' := fetched ++ [url]
        match net.fetch url with
        | none => crawlLoop fuel queue visited' records fetched'
        | some (ctRaw, content) =>
          let ct := pyLower ctRaw
          let lowUrl := pyLower url.toStr
          if !pyContains ct (str "text/html") &&
              !(DOC_EXTS.any (fun e => pyEndsWith lowUrl e)) then
            crawlLoop fuel queue visited' records fetched'
          else if is_probably_binary url.toStr then
            crawlLoop fuel queue visited' records fetched'
          else
            let record :=
              if pyEndsWith lowUrl (str ".md") ||
                  pyEndsWith lowUrl (str ".markdown") ||
                  pyEndsWith lowUrl (str ".txt") then
                { url := url,
                  kind := if pyEndsWith lowUrl (str ".md") ||
                      pyEndsWith lowUrl (str ".markdown")
                    then str "markdown" else str "text",
                  text := normalize_ws content,
                  title := none }
              else
                { url := url, kind := str "html",
                  text := net.extract_visible_text content,
                  title := net.extract_title content }
            let queue' :=
              if pyContains ct (str "text/html") then
                queue ++ (net.links url content).filter
                  (fun ln => !decide (ln ∈ visited') && same_domain start ln)
              else queue
            crawlLoop fuel queue' visited' (records ++ [record]) fetched'

/-- `crawl_docs.crawl` (lines 89-166) as a function of its collaborators.
The robots handling of `get_robots_ok` is summarised by the `robots_ok`
verdict (constantly true under `ignore_robots` or when the robots fetch
failed).  The fuel bounds the number of loop iterations; the properties
proved below hold for every fuel. -/
def crawl (fuel : Nat) : List PageRecord × List Url :=
  crawlLoop net robots_ok include_globs exclude_globs start maxPages fuel
    [start] [] [] []

end Crawl

/-- A start URL of scheme `http`, used to exercise the scheme handling of
`same_domain` on a crawl. -/
def cexStart : Url := { scheme := str "http", netloc := str "x.test", rest := str "/a" }

/-- A candidate URL of the same host as `cexStart` but of scheme `https`. -/
def cexCand : Url := { scheme := str "https", netloc := str "x.test", rest := str "/b" }

/-- Concrete collaborators: every fetch succeeds with an HTML body, and
the page at `cexStart` links to `cexCand`. -/
def cexNet : Net where
  fetch := fun _ => some (str "text/html", str "body")
  extract_title := fun _ => none
  extract_visible_text := fun s => s
  links := fun u _ => if u = cexStart then [cexCand] else []

/-! ### Properties of the string primitives -/

theorem dropWhile_head?_false (p : Char → Bool) (l : Str) (c : Char)
    (h : (l.dropWhile p).head? = some c) : p c = false := by
  induction l with
  | nil => simp [List.dropWhile] at h
  | cons x xs ih =>
    rw [List.dropWhile_cons] at h
    by_cases hp : p x
    · rw [if_pos hp] at h; exact ih h
    · rw [if_neg hp] at h
      simp only [List.head?_cons, Option.some.injEq] at h
      subst h; simpa using hp

theorem dropWhile_eq_self_head (p : Char → Bool) (l : Str)
    (h : ∀ c, l.head? = some c → p c = false) : l.dropWhile p = l := by
  cases l with
  | nil => rfl
  | cons x xs =>
    rw [List.dropWhile_cons, if_neg]
    simp [h x rfl]

theorem pyRstrip_prefix_of (l : Str) : pyRstrip l <+: l := by
  have h : List.dropWhile pyIsSpace l.reverse <:+ l.reverse :=
    List.dropWhile_suffix _
  have h2 := List.reverse_prefix.mpr h
  simpa [pyRstrip] using h2

theorem prefix_head?_eq {l₁ l₂ : Str} (h : l₁ <+: l₂) (hne : l₁ ≠ []) :
    l₂.head? = l₁.head? := by
  obtain ⟨t, rfl⟩ := h
  cases l₁ with
  | nil => simp at hne
  | cons a l => simp

theorem mem_pyStrip {c : Char} {l : Str} (h : c ∈ pyStrip l) : c ∈ l := by
  have h1 : c ∈ pyLstrip l := (pyRstrip_prefix_of (pyLstrip l)).sublist.subset h
  exact (List.dropWhile_sublist _).subset h1

theorem pyStrip_eq_nil_iff {l : Str} :
    pyStrip l = [] ↔ ∀ c ∈ l, pyIsSpace c = true := by
  constructor
  · intro h c hc
    have h1 : (l.dropWhile pyIsSpace).reverse.dropWhile pyIsSpace = [] := by
      have := congrArg List.reverse h
      simpa [pyStrip, pyRstrip, pyLstrip] using this
    have h2 := List.dropWhile_eq_nil_iff.mp h1
    have h3 := List.takeWhile_append_dropWhile pyIsSpace l
    rw [← h3] at hc
    rcases List.mem_append.mp hc with hm | hm
    · exact List.mem_takeWhile_imp hm
    · exact h2 c (List.mem_reverse.mpr hm)
  · intro h
    have h1 : l.dropWhile pyIsSpace = [] := List.dropWhile_eq_nil_iff.mpr h
    simp [pyStrip, pyLstrip, pyRstrip, h1]

theorem pyStrip_ne_nil_of_mem {l : Str} {c : Char} (hc : c ∈ l)
    (hs : pyIsSpace c = false) : pyStrip l ≠ [] := by
  intro h
  have := pyStrip_eq_nil_iff.mp h c hc
  simp [hs] at this

theorem pyStrip_head?_not {l : Str} {c : Char} (h : (pyStrip l).head? = some c) :
    pyIsSpace c = false := by
  have hne : pyStrip l ≠ [] := by intro hh; rw [hh] at h; cases h
  have hpre : pyStrip l <+: pyLstrip l := pyRstrip_prefix_of _
  have heq := prefix_head?_eq hpre hne
  exact dropWhile_head?_false pyIsSpace l c (by simpa [pyLstrip] using heq.trans h)

theorem pyStrip_getLast?_not {l : Str} {c : Char} (h : (pyStrip l).getLast? = some c) :
    pyIsSpace c = false := by
  unfold pyStrip pyRstrip at h
  rw [List.getLast?_reverse] at h
  exact dropWhile_head?_false _ _ _ h

theorem pyLstrip_eq_self {l : Str}
    (h : ∀ c, l.head? = some c → pyIsSpace c = false) : pyLstrip l = l :=
  dropWhile_eq_self_head _ _ h

theorem pyRstrip_eq_self {l : Str}
    (h : ∀ c, l.getLast? = some c → pyIsSpace c = false) : pyRstrip l = l := by
  unfold pyRstrip
  rw [dropWhile_eq_self_head _ _ (fun c hc => h c (by rwa [List.head?_reverse] at hc)),
    List.reverse_reverse]

theorem pyStrip_idem (l : Str) : pyStrip (pyStrip l) = pyStrip l := by
  show pyRstrip (pyLstrip (pyStrip l)) = pyStrip l
  rw [pyLstrip_eq_self (fun c hc => pyStrip_head?_not hc)]
  exact pyRstrip_eq_self (fun c hc => pyStrip_getLast?_not hc)

theorem pyStrip_eq_self_of_no_space {l : Str}
    (h : ∀ c ∈ l, pyIsSpace c = false) : pyStrip l = l := by
  show pyRstrip (pyLstrip l) = l
  rw [pyLstrip_eq_self (fun c hc => h c (by
    cases l with
    | nil => cases hc
    | cons a t => simp only [List.head?_cons, Option.some.injEq] at hc; simp [hc]))]
  refine pyRstrip_eq_self (fun c hc => h c ?_)
  obtain ⟨hne, rfl⟩ := List.mem_getLast?_eq_getLast (Option.mem_def.mpr hc)
  exact List.getLast_mem hne

/-! ### Forward progress of the chunker (claim C1) -/

theorem chunkCut_eq (s : Str) (maxChars start : Nat) :
    chunkCut s maxChars start =
      match pyRfind s nn start (min (start + maxChars) s.length) with
      | none => min (start + maxChars) s.length
      | some c => if c ≤ start + 200 then min (start + maxChars) s.length else c :=
  rfl

theorem chunkNext_eq (s : Str) (maxChars overlap start : Nat) :
    chunkNext s maxChars overlap start =
      if chunkCut s maxChars start ≤ start + overlap then start + maxChars
      else chunkCut s maxChars start - overlap :=
  rfl

theorem chunkCut_gt {s : Str} {maxChars start : Nat} (hm : 1 ≤ maxChars)
    (hs : start < s.length) : start < chunkCut s maxChars start := by
  rw [chunkCut_eq]
  cases h : pyRfind s nn start (min (start + maxChars) s.length) with
  | none =>
    show start < min (start + maxChars) s.length
    omega
  | some c =>
    show start < if c ≤ start + 200 then min (start + maxChars) s.length else c
    split
    · omega
    · omega

theorem chunkNext_gt {s : Str} {maxChars overlap start : Nat} (hm : 1 ≤ maxChars) :
    start < chunkNext s maxChars overlap start := by
  rw [chunkNext_eq]
  split
  · omega
  · omega

theorem chunkNext_full {s : Str} {maxChars overlap start : Nat}
    (h : chunkCut s maxChars start ≤ start + overlap) :
    chunkNext s maxChars overlap start = start + maxChars := by
  rw [chunkNext_eq, if_pos h]

theorem chunkTextLoop_isSome {s : Str} {m o : Nat} (hm : 1 ≤ m) :
    ∀ fuel start, s.length - start < fuel →
      (chunkTextLoop fuel s m o start).isSome = true := by
  intro fuel
  induction fuel with
  | zero => intro start h; omega
  | succ f ih =>
    intro start h
    by_cases hs : start < s.length
    · have hnext := @chunkNext_gt s m o start hm
      have hrec := ih (chunkNext s m o start) (by omega)
      simp only [chunkTextLoop, if_pos hs]
      cases hrec' : chunkTextLoop f s m o (chunkNext s m o start) with
      | none => rw [hrec'] at hrec; simp at hrec
      | some cs => simp
    · simp [chunkTextLoop, hs]

theorem chunkTextLoop_mem {s : Str} {m o : Nat} :
    ∀ fuel start cs, chunkTextLoop fuel s m o start = some cs →
      ∀ c ∈ cs, pyStrip c = c ∧ c ≠ [] := by
  intro fuel
  induction fuel with
  | zero => intro start cs h; cases h
  | succ f ih =>
    intro start cs h
    by_cases hs : start < s.length
    · simp only [chunkTextLoop, if_pos hs] at h
      cases hrec : chunkTextLoop f s m o (chunkNext s m o start) with
      | none => rw [hrec] at h; cases h
      | some cs' =>
        rw [hrec] at h
        simp only [Option.some.injEq] at h
        subst h
        intro c hc
        by_cases he : (pyStrip (pySlice s start (chunkCut s m start))).isEmpty
        · rw [if_pos he] at hc
          exact ih _ _ hrec c hc
        · rw [if_neg he] at hc
          rcases List.mem_cons.mp hc with rfl | hc
          · refine ⟨pyStrip_idem _, fun hnil => ?_⟩
            rw [hnil] at he
            simp at he
          · exact ih _ _ hrec c hc
    · simp only [chunkTextLoop, if_neg hs, Option.some.injEq] at h
      subst h
      intro c hc
      cases hc

theorem chunk_text_ne_nil {s : Str} {m o : Nat} (hm : 1 ≤ m)
    (hs : pyStrip s ≠ []) : chunk_text s m o ≠ [] := by
  unfold chunk_text
  rw [if_neg (by simpa [List.isEmpty_iff] using hs)]
  have h0 : 0 < (pyStrip s).length := List.length_pos.mpr hs
  obtain ⟨c, t, ht⟩ : ∃ c t, pyStrip s = c :: t := by
    cases hst : pyStrip s with
    | nil => exact absurd hst hs
    | cons c t => exact ⟨c, t, rfl⟩
  have hcsp : pyIsSpace c = false :=
    @pyStrip_head?_not s c (by rw [ht]; rfl)
  have hcut : 0 < chunkCut (pyStrip s) m 0 := by simpa using chunkCut_gt hm h0
  have hmemc : c ∈ pySlice (pyStrip s) 0 (chunkCut (pyStrip s) m 0) := by
    obtain ⟨k, hk⟩ : ∃ k, chunkCut (pyStrip s) m 0 = k + 1 :=
      ⟨chunkCut (pyStrip s) m 0 - 1, by omega⟩
    rw [pySlice, List.drop_zero, Nat.sub_zero, hk, ht, List.take_succ_cons]
    exact List.mem_cons_self _ _
  have hchunk : pyStrip (pySlice (pyStrip s) 0 (chunkCut (pyStrip s) m 0)) ≠ [] :=
    pyStrip_ne_nil_of_mem hmemc hcsp
  have hnext := @chunkNext_gt (pyStrip s) m o 0 hm
  have hsome := @chunkTextLoop_isSome (pyStrip s) m o hm
    (pyStrip s).length (chunkNext (pyStrip s) m o 0) (by omega)
  cases hrec : chunkTextLoop (pyStrip s).length (pyStrip s) m o (chunkNext (pyStrip s) m o 0) with
  | none => rw [hrec] at hsome; simp at hsome
  | some cs =>
    simp only [chunkTextLoop, if_pos h0, hrec]
    rw [if_neg (by simpa [List.isEmpty_iff] using hchunk)]
    simp

/-- Claim C1: for `overlap < maxChars` (hence `maxChars ≥ 1`) the
`chunk_text` loop terminates within its allotted fuel; a non-empty
trimmed input yields a non-empty list; every fragment is non-empty after
trimming; the window start strictly increases across iterations; and when
`cut - overlap` would not exceed the previous start the window advances
by the full `maxChars`. -/
theorem chunk_text_forward_progress (s : Str) (maxChars overlap : Nat)
    (hov : overlap < maxChars) :
    (chunkTextLoop ((pyStrip s).length + 1) (pyStrip s) maxChars overlap 0).isSome = true ∧
    (pyStrip s ≠ [] → chunk_text s maxChars overlap ≠ []) ∧
    (∀ c ∈ chunk_text s maxChars overlap, pyStrip c ≠ []) ∧
    (∀ start, start < chunkNext (pyStrip s) maxChars overlap start) ∧
    (∀ start, chunkCut (pyStrip s) maxChars start ≤ start + overlap →
      chunkNext (pyStrip s) maxChars overlap start = start + maxChars) := by
  have hm : 1 ≤ maxChars := by omega
  refine ⟨chunkTextLoop_isSome hm _ 0 (by omega),
    fun h => chunk_text_ne_nil hm h, ?_,
    fun start => chunkNext_gt hm, fun start h => chunkNext_full h⟩
  intro c hc
  unfold chunk_text at hc
  by_cases he : (pyStrip s).isEmpty
  · rw [if_pos he] at hc; cases hc
  · rw [if_neg he] at hc
    cases hloop : chunkTextLoop ((pyStrip s).length + 1) (pyStrip s) maxChars overlap 0 with
    | none =>
      have hsome := @chunkTextLoop_isSome (pyStrip s) maxChars overlap hm
        ((pyStrip s).length + 1) 0 (by omega)
      rw [hloop] at hsome; simp at hsome
    | some cs =>
      rw [hloop] at hc
      simp only [Option.getD_some] at hc
      have h := chunkTextLoop_mem _ _ _ hloop c hc
      rw [h.1]
      exact h.2

/-! ### The 2500-character scenario (claim C3) -/

theorem pyContains_nil (sub : Str) : pyContains [] sub = sub.isPrefixOf [] := by
  rw [pyContains]
  exact Bool.or_false _

theorem pyContains_cons (c : Char) (t sub : Str) :
    pyContains (c :: t) sub = (sub.isPrefixOf (c :: t) || pyContains t sub) := by
  rw [pyContains]

theorem rfindGo_eq_none {sub : Str} (hne : sub ≠ []) :
    ∀ (s : Str), pyContains s sub = false → ∀ a b i, rfindGo sub a b s i = none := by
  intro s
  induction s with
  | nil =>
    intro h a b i
    have hp : sub.isPrefixOf ([] : Str) = false := by
      cases sub with
      | nil => exact absurd rfl hne
      | cons x xs => rfl
    simp [rfindGo, hp]
  | cons c t ih =>
    intro h a b i
    rw [pyContains_cons] at h
    have h1 := Bool.or_eq_false_iff.mp h
    simp [rfindGo, ih h1.2, h1.1]

theorem pyRfind_eq_none {s sub : Str} (hsub : pyContains s sub = false)
    (hne : sub ≠ []) (a b : Nat) : pyRfind s sub a b = none :=
  rfindGo_eq_none hne s hsub a b 0

theorem pyContains_nn_false {s : Str} (h : ∀ c ∈ s, c ≠ '\n') :
    pyContains s nn = false := by
  induction s with
  | nil => decide
  | cons c t ih =>
    rw [pyContains_cons]
    have hc : nn.isPrefixOf (c :: t) = false := by
      have hcn : ('\n' : Char) ≠ c := (h c (List.mem_cons_self _ _)).symm
      show (('\n' :: '\n' :: []).isPrefixOf (c :: t)) = false
      simp [List.isPrefixOf, beq_iff_eq, hcn]
    rw [hc, ih (fun x hx => h x (List.mem_cons_of_mem _ hx))]
    rfl

theorem mem_pySlice {c : Char} {s : Str} {a b : Nat} (h : c ∈ pySlice s a b) :
    c ∈ s :=
  ((List.take_sublist _ _).trans (List.drop_sublist _ _)).subset h

theorem pySlice_length {s : Str} {a b : Nat} (hb : b ≤ s.length) (hab : a ≤ b) :
    (pySlice s a b).length = b - a := by
  simp only [pySlice, List.length_take, List.length_drop]
  omega

theorem chunkCut_noNN {s : Str} {m start : Nat} (hnn : pyContains s nn = false) :
    chunkCut s m start = min (start + m) s.length := by
  rw [chunkCut_eq, pyRfind_eq_none hnn (by decide)]

theorem chunkTextLoop_stop {s : Str} {m o fuel start : Nat}
    (hs : ¬ start < s.length) (hf : 0 < fuel) :
    chunkTextLoop fuel s m o start = some [] := by
  obtain ⟨f, rfl⟩ : ∃ f, fuel = f + 1 := ⟨fuel - 1, by omega⟩
  simp [chunkTextLoop, hs]

theorem chunkTextLoop_step_some {s : Str} {m o fuel start : Nat} {cs : List Str}
    (hnn : pyContains s nn = false) (hsp : ∀ c ∈ s, pyIsSpace c = false)
    (hm : 1 ≤ m) (hs : start < s.length) (hf : 0 < fuel)
    (hrec : chunkTextLoop (fuel - 1) s m o (chunkNext s m o start) = some cs) :
    chunkTextLoop fuel s m o start =
      some (pySlice s start (min (start + m) s.length) :: cs) := by
  obtain ⟨f, rfl⟩ : ∃ f, fuel = f + 1 := ⟨fuel - 1, by omega⟩
  rw [Nat.add_sub_cancel] at hrec
  have hcut : chunkCut s m start = min (start + m) s.length := chunkCut_noNN hnn
  have hchunk : pyStrip (pySlice s start (chunkCut s m start)) =
      pySlice s start (chunkCut s m start) :=
    pyStrip_eq_self_of_no_space (fun c hc => hsp c (mem_pySlice hc))
  have hlen : (pySlice s start (chunkCut s m start)).length ≠ 0 := by
    rw [pySlice_length (by rw [hcut]; omega) (le_of_lt (chunkCut_gt hm hs))]
    have := @chunkCut_gt s m start hm hs
    omega
  simp only [chunkTextLoop, if_pos hs, hrec, hchunk]
  rw [if_neg (by simpa [List.isEmpty_iff, ← List.length_eq_zero] using hlen), hcut]

theorem chunkText2500aux {s : Str} (h1 : s.length = 2500)
    (h2 : pyContains s nn = false) (h3 : ∀ c ∈ s, pyIsSpace c = false) :
    chunk_text s 1000 150 =
      [pySlice s 0 1000, pySlice s 850 1850, pySlice s 1700 2500,
       pySlice s 2350 2500] := by
  have hstrip : pyStrip s = s := pyStrip_eq_self_of_no_space h3
  have hne : s ≠ [] := by intro h; rw [h] at h1; simp at h1
  have hcut : ∀ start, chunkCut s 1000 start = min (start + 1000) s.length :=
    fun _ => chunkCut_noNN h2
  have n0 : chunkNext s 1000 150 0 = 850 := by
    rw [chunkNext_eq, hcut 0, h1]; norm_num
  have n1 : chunkNext s 1000 150 850 = 1700 := by
    rw [chunkNext_eq, hcut 850, h1]; norm_num
  have n2 : chunkNext s 1000 150 1700 = 2350 := by
    rw [chunkNext_eq, hcut 1700, h1]; norm_num
  have n3 : chunkNext s 1000 150 2350 = 3350 := by
    rw [chunkNext_eq, hcut 2350, h1]; norm_num
  have e4 : chunkTextLoop 2497 s 1000 150 3350 = some [] :=
    chunkTextLoop_stop (by omega) (by norm_num)
  have e3 : chunkTextLoop 2498 s 1000 150 2350 = some [pySlice s 2350 2500] := by
    have h := @chunkTextLoop_step_some s 1000 150 2498 2350 _
      h2 h3 (by norm_num) (by omega) (by norm_num)
      (by rw [n3]; norm_num; exact e4)
    rw [h, h1]; norm_num
  have e2 : chunkTextLoop 2499 s 1000 150 1700 =
      some [pySlice s 1700 2500, pySlice s 2350 2500] := by
    have h := @chunkTextLoop_step_some s 1000 150 2499 1700 _
      h2 h3 (by norm_num) (by omega) (by norm_num)
      (by rw [n2]; norm_num; exact e3)
    rw [h, h1]; norm_num
  have e1 : chunkTextLoop 2500 s 1000 150 850 =
      some [pySlice s 850 1850, pySlice s 1700 2500, pySlice s 2350 2500] := by
    have h := @chunkTextLoop_step_some s 1000 150 2500 850 _
      h2 h3 (by norm_num) (by omega) (by norm_num)
      (by rw [n1]; norm_num; exact e2)
    rw [h, h1]; norm_num
  have e0 : chunkTextLoop 2501 s 1000 150 0 =
      some [pySlice s 0 1000, pySlice s 850 1850, pySlice s 1700 2500,
        pySlice s 2350 2500] := by
    have h := @chunkTextLoop_step_some s 1000 150 2501 0 _
      h2 h3 (by norm_num) (by omega) (by norm_num)
      (by rw [n0]; norm_num; exact e1)
    rw [h, h1]; norm_num
  unfold chunk_text
  rw [hstrip, if_neg (by simpa [List.isEmpty_iff] using hne), h1]
  norm_num
  rw [e0]
  rfl

/-- Claim C3 (amended): on a 2500-character whitespace-free input with no
paragraph break, `chunk_text` with `maxChars = 1000`, `overlap = 150`
returns exactly FOUR chunks covering the input, each successive chunk
starting 150 characters before the previous cut, the last ending exactly
at the end of the input. -/
theorem chunk_text_2500_scenario (s : Str) (h1 : s.length = 2500)
    (h2 : pyContains s nn = false) (h3 : ∀ c ∈ s, pyIsSpace c = false) :
    chunk_text s 1000 150 =
      [pySlice s 0 1000, pySlice s 850 1850, pySlice s 1700 2500,
       pySlice s 2350 2500] :=
  chunkText2500aux h1 h2 h3

/-- Counterexample to C3 as stated: a 2500-character break-free input
yields 4 chunks, not 3. -/
theorem chunk_text_2500_not_three_chunks :
    (chunk_text (List.replicate 2500 'a') 1000 150).length = 4 ∧
    (chunk_text (List.replicate 2500 'a') 1000 150).length ≠ 3 := by
  have h := @chunkText2500aux (List.replicate 2500 'a')
    (by rw [List.length_replicate])
    (pyContains_nn_false
      (fun c hc => by rw [List.eq_of_mem_replicate hc]; decide))
    (fun c hc => by rw [List.eq_of_mem_replicate hc]; decide)
  rw [h]
  exact ⟨rfl, by decide⟩

/-- Witness for the amended C3 at the all-`a` input of length 2500. -/
theorem chunk_text_2500_scenario_witness :
    chunk_text (List.replicate 2500 'a') 1000 150 =
      [pySlice (List.replicate 2500 'a') 0 1000,
       pySlice (List.replicate 2500 'a') 850 1850,
       pySlice (List.replicate 2500 'a') 1700 2500,
       pySlice (List.replicate 2500 'a') 2350 2500] :=
  chunk_text_2500_scenario (List.replicate 2500 'a') (by rw [List.length_replicate])
    (pyContains_nn_false
      (fun c hc => by rw [List.eq_of_mem_replicate hc]; decide))
    (fun c hc => by rw [List.eq_of_mem_replicate hc]; decide)

/-! ### Splitting into lines and joining back -/

theorem splitLinesGo_crlf (acc rest : Str) :
    splitLinesGo acc ('\r' :: '\n' :: rest) = acc.reverse :: splitLinesGo [] rest :=
  rfl

theorem splitLinesGo_cons (acc : Str) (c : Char) (rest : Str)
    (h : ¬(c = '\r' ∧ rest.head? = some '\n')) :
    splitLinesGo acc (c :: rest) =
      if isLineBreak c then acc.reverse :: splitLinesGo [] rest
      else splitLinesGo (c :: acc) rest := by
  conv_lhs => rw [splitLinesGo.eq_def]
  split
  · rename_i heq
    exact nomatch heq
  · rename_i heq
    injection heq with h1 h2
    exact absurd ⟨h1, by rw [h2]; rfl⟩ h
  · rename_i x1 x2 heq
    injection heq with h1 h2
    subst h1
    subst h2
    rfl

theorem splitLinesGo_append {l : Str} (hl : ∀ c ∈ l, isLineBreak c = false) :
    ∀ acc rest, splitLinesGo acc (l ++ rest) = splitLinesGo (l.reverse ++ acc) rest := by
  induction l with
  | nil => intro acc rest; simp
  | cons c t ih =>
    intro acc rest
    have hc : isLineBreak c = false := hl c (List.mem_cons_self _ _)
    have hcr : c ≠ '\r' := fun h => by rw [h] at hc; exact absurd hc (by decide)
    rw [List.cons_append, splitLinesGo_cons _ _ _ (fun hx => hcr hx.1),
      if_neg (by simp [hc])]
    rw [ih (fun x hx => hl x (List.mem_cons_of_mem _ hx)) (c :: acc) rest]
    simp

theorem splitLinesGo_noBreak {l : Str} (hl : ∀ c ∈ l, isLineBreak c = false)
    (hne : l ≠ []) : pySplitLines l = [l] := by
  unfold pySplitLines
  rw [← List.append_nil l, splitLinesGo_append hl [] []]
  rw [show splitLinesGo (l.reverse ++ []) [] =
    if (l.reverse ++ []).isEmpty then [] else [(l.reverse ++ []).reverse] from rfl]
  simp [hne]

theorem pySplitLines_join {ls : List Str}
    (h : ∀ l ∈ ls, l ≠ [] ∧ ∀ c ∈ l, isLineBreak c = false) :
    pySplitLines (pyJoinNL ls) = ls := by
  induction ls with
  | nil => simp [pySplitLines, pyJoinNL, splitLinesGo]
  | cons l ls ih =>
    cases ls with
    | nil =>
      have hl := h l (List.mem_cons_self _ _)
      exact splitLinesGo_noBreak hl.2 hl.1
    | cons l' ls' =>
      have hl := h l (List.mem_cons_self _ _)
      rw [pyJoinNL]
      unfold pySplitLines
      rw [splitLinesGo_append hl.2]
      rw [splitLinesGo_cons _ _ _ (fun hx => absurd hx.1 (by decide))]
      rw [if_pos (by decide)]
      have hrw : (List.reverse l ++ []).reverse = l := by simp
      rw [hrw]
      exact congrArg (l :: ·) (ih (fun x hx => h x (List.mem_cons_of_mem _ hx)))

theorem splitLinesGo_mem_noBreak :
    ∀ (n : Nat) (s acc : Str), s.length ≤ n →
      (∀ c ∈ acc, isLineBreak c = false) →
      ∀ l ∈ splitLinesGo acc s, ∀ c ∈ l, isLineBreak c = false := by
  intro n
  induction n with
  | zero =>
    intro s acc hlen hacc l hl c hc
    have : s = [] := List.length_eq_zero.mp (Nat.le_zero.mp hlen)
    subst this
    rw [show splitLinesGo acc [] =
      if acc.isEmpty then [] else [acc.reverse] from rfl] at hl
    by_cases he : acc.isEmpty
    · rw [if_pos he] at hl; cases hl
    · rw [if_neg he] at hl
      rcases List.mem_singleton.mp hl with rfl
      exact hacc c (List.mem_reverse.mp hc)
  | succ n ih =>
    intro s acc hlen hacc l hl c hc
    cases s with
    | nil =>
      rw [show splitLinesGo acc [] =
        if acc.isEmpty then [] else [acc.reverse] from rfl] at hl
      by_cases he : acc.isEmpty
      · rw [if_pos he] at hl; cases hl
      · rw [if_neg he] at hl
        rcases List.mem_singleton.mp hl with rfl
        exact hacc c (List.mem_reverse.mp hc)
    | cons x rest =>
      by_cases h1 : x = '\r' ∧ rest.head? = some '\n'
      · obtain ⟨hx, hh⟩ := h1
        subst hx
        cases rest with
        | nil => simp at hh
        | cons y rest2 =>
          simp only [List.head?_cons, Option.some.injEq] at hh
          subst hh
          rw [splitLinesGo_crlf] at hl
          rcases List.mem_cons.mp hl with rfl | hl
          · exact hacc c (List.mem_reverse.mp hc)
          · refine ih rest2 [] ?_ (by intro y hy; cases hy) l hl c hc
            simp only [List.length_cons] at hlen
            omega
      · rw [splitLinesGo_cons _ _ _ h1] at hl
        by_cases h2 : isLineBreak x
        · rw [if_pos h2] at hl
          rcases List.mem_cons.mp hl with rfl | hl
          · exact hacc c (List.mem_reverse.mp hc)
          · refine ih rest [] ?_ (by intro y hy; cases hy) l hl c hc
            simp only [List.length_cons] at hlen; omega
        · rw [if_neg h2] at hl
          refine ih rest (x :: acc) ?_ ?_ l hl c hc
          · simp only [List.length_cons] at hlen; omega
          · intro y hy
            rcases List.mem_cons.mp hy with rfl | hy
            · simpa using h2
            · exact hacc y hy

theorem pySplitLines_mem_noBreak {s l : Str} (hl : l ∈ pySplitLines s) :
    ∀ c ∈ l, isLineBreak c = false :=
  splitLinesGo_mem_noBreak s.length s [] (le_refl _) (by intro y hy; cases hy) l hl

theorem pyJoinNL_head? {l : Str} {ls : List Str} (hne : l ≠ []) :
    (pyJoinNL (l :: ls)).head? = l.head? := by
  cases ls with
  | nil => rfl
  | cons l' ls' =>
    rw [pyJoinNL]
    cases l with
    | nil => exact absurd rfl hne
    | cons a t => rfl

theorem chain'_of_no_nl {l : Str} (h : ∀ c ∈ l, c ≠ '\n') :
    List.Chain' (fun a b => ¬(a = '\n' ∧ b = '\n')) l := by
  induction l with
  | nil => simp
  | cons c t ih =>
    rw [List.chain'_cons']
    refine ⟨fun y _ hy => absurd hy.1 (h c (List.mem_cons_self _ _)), ?_⟩
    exact ih (fun x hx => h x (List.mem_cons_of_mem _ hx))

theorem chain'_join_no_nl {ls : List Str}
    (h : ∀ l ∈ ls, l ≠ [] ∧ ∀ c ∈ l, c ≠ '\n') :
    List.Chain' (fun a b => ¬(a = '\n' ∧ b = '\n')) (pyJoinNL ls) := by
  induction ls with
  | nil => simp [pyJoinNL]
  | cons l ls ih =>
    cases ls with
    | nil => exact chain'_of_no_nl (h l (List.mem_cons_self _ _)).2
    | cons l' ls' =>
      have hl := h l (List.mem_cons_self _ _)
      have hl' := h l' (List.mem_cons_of_mem _ (List.mem_cons_self _ _))
      rw [pyJoinNL, List.chain'_append]
      refine ⟨chain'_of_no_nl hl.2, ?_, ?_⟩
      · rw [List.chain'_cons']
        refine ⟨?_, ih (fun x hx => h x (List.mem_cons_of_mem _ hx))⟩
        intro y hy hy2
        rw [pyJoinNL_head? hl'.1] at hy
        have hyl : y ∈ l' := by
          cases l' with
          | nil => cases hy
          | cons a t =>
            simp only [List.head?_cons, Option.mem_def, Option.some.injEq] at hy
            simp [hy]
        exact hl'.2 y hyl hy2.2
      · intro x hx y hy hxy
        have hxl : x ∈ l := by
          obtain ⟨hne2, rfl⟩ := List.mem_getLast?_eq_getLast hx
          exact List.getLast_mem hne2
        simp only [List.head?_cons, Option.mem_def, Option.some.injEq] at hy
        exact hl.2 x hxl hxy.1

/-! ### Substring search and the absence of paragraph breaks -/

theorem pyContains_iff_infix {s sub : Str} : pyContains s sub = true ↔ sub <:+: s := by
  induction s with
  | nil =>
    rw [pyContains_nil, List.isPrefixOf_iff_prefix]
    constructor
    · intro h
      have hs : sub = [] := List.prefix_nil.mp h
      subst hs
      exact List.nil_infix
    · intro h
      have hs : sub = [] := List.infix_nil.mp h
      subst hs
      exact List.nil_prefix
  | cons c t ih =>
    rw [pyContains_cons, Bool.or_eq_true, List.isPrefixOf_iff_prefix, ih]
    exact List.infix_cons_iff.symm

theorem pyContains_nn_false_of_chain {s : Str}
    (h : List.Chain' (fun a b => ¬(a = '\n' ∧ b = '\n')) s) :
    pyContains s nn = false := by
  cases hb : pyContains s nn with
  | false => rfl
  | true =>
    exfalso
    obtain ⟨pre, suf, hps⟩ := pyContains_iff_infix.mp hb
    rw [← hps, List.append_assoc] at h
    have h2 := (List.chain'_append.mp h).2.1
    rw [show nn ++ suf = '\n' :: '\n' :: suf from rfl] at h2
    exact (List.chain'_cons.mp h2).1 ⟨rfl, rfl⟩

theorem pyJoinNL_no_nn {ls : List Str}
    (h : ∀ l ∈ ls, l ≠ [] ∧ ∀ c ∈ l, c ≠ '\n') :
    pyContains (pyJoinNL ls) nn = false :=
  pyContains_nn_false_of_chain (chain'_join_no_nl h)

/-! ### The duplicate-line collapse of the noise filter -/

theorem mem_collapseAfter : ∀ {ls : List Str} {prev l : Str},
    l ∈ collapseAfter prev ls → l ∈ ls := by
  intro ls
  induction ls with
  | nil => intro prev l h; cases h
  | cons x xs ih =>
    intro prev l h
    rw [collapseAfter] at h
    by_cases hx : x = prev
    · rw [if_pos hx] at h
      exact List.mem_cons_of_mem _ (ih h)
    · rw [if_neg hx] at h
      rcases List.mem_cons.mp h with rfl | h
      · exact List.mem_cons_self _ _
      · exact List.mem_cons_of_mem _ (ih h)

theorem mem_collapseDups {ls : List Str} {l : Str} (h : l ∈ collapseDups ls) :
    l ∈ ls := by
  cases ls with
  | nil => cases h
  | cons x xs =>
    rw [collapseDups] at h
    rcases List.mem_cons.mp h with rfl | h
    · exact List.mem_cons_self _ _
    · exact List.mem_cons_of_mem _ (mem_collapseAfter h)

theorem chain'_cons_collapseAfter :
    ∀ (ls : List Str) (prev : Str),
      List.Chain' (fun a b => a ≠ b) (prev :: collapseAfter prev ls) := by
  intro ls
  induction ls with
  | nil => intro prev; simp [collapseAfter]
  | cons x xs ih =>
    intro prev
    rw [collapseAfter]
    by_cases hx : x = prev
    · rw [if_pos hx]; exact ih prev
    · rw [if_neg hx, List.chain'_cons]
      exact ⟨Ne.symm hx, ih x⟩

theorem chain'_collapseDups (ls : List Str) :
    List.Chain' (fun a b => a ≠ b) (collapseDups ls) := by
  cases ls with
  | nil => simp [collapseDups]
  | cons x xs =>
    rw [collapseDups]
    exact chain'_cons_collapseAfter xs x

theorem collapseAfter_eq_self :
    ∀ {ls : List Str} {prev : Str},
      List.Chain' (fun a b => a ≠ b) (prev :: ls) → collapseAfter prev ls = ls := by
  intro ls
  induction ls with
  | nil => intro prev _; rfl
  | cons x xs ih =>
    intro prev h
    rw [List.chain'_cons] at h
    rw [collapseAfter, if_neg (Ne.symm h.1), ih h.2]

theorem collapseDups_eq_self {ls : List Str}
    (h : List.Chain' (fun a b => a ≠ b) ls) : collapseDups ls = ls := by
  cases ls with
  | nil => rfl
  | cons x xs => rw [collapseDups, collapseAfter_eq_self h]

/-! ### The cleaned line list (claims C4, C9, C10) -/

theorem keepLine_ne_nil {l : Str} (h : keepLine l = true) : l ≠ [] := by
  intro hnil
  rw [hnil] at h
  exact absurd h (by decide)

theorem cleanLines_eq (s : Str) :
    pySplitLines (clean_nav_footer_noise s) =
      collapseDups ((pySplitLines s).filter keepLine) := by
  unfold clean_nav_footer_noise
  apply pySplitLines_join
  intro l hl
  have hmem : l ∈ (pySplitLines s).filter keepLine := mem_collapseDups hl
  refine ⟨keepLine_ne_nil (List.of_mem_filter hmem), ?_⟩
  exact pySplitLines_mem_noBreak (List.mem_of_mem_filter hmem)

theorem clean_nav_footer_noise_idem (s : Str) :
    clean_nav_footer_noise (clean_nav_footer_noise s) = clean_nav_footer_noise s := by
  show pyJoinNL (collapseDups
      ((pySplitLines (clean_nav_footer_noise s)).filter keepLine)) =
    clean_nav_footer_noise s
  rw [cleanLines_eq,
    List.filter_eq_self.mpr (fun a ha => List.of_mem_filter (mem_collapseDups ha)),
    collapseDups_eq_self (chain'_collapseDups _)]
  rfl

/-- Claim C4 (amended): the chunkers perform no fragment-level
deduplication (see the counterexample below); the collapse of
byte-identical consecutive duplicates is line-level, in
`clean_nav_footer_noise`, which runs before the fence scan of
`chunk_with_code_blocks` — its output never holds two consecutive
identical lines. -/
theorem clean_collapses_consecutive_duplicates (s : Str) (maxChars overlap : Nat) :
    chunk_with_code_blocks s maxChars overlap =
      cwcbLoop maxChars overlap (pySplitLines (clean_nav_footer_noise s)) [] false ∧
    List.Chain' (fun a b => a ≠ b) (pySplitLines (clean_nav_footer_noise s)) :=
  ⟨rfl, by rw [cleanLines_eq]; exact chain'_collapseDups _⟩

/-- Counterexample to C4 as stated: `chunk_text "aaaa" 2 1`, and the same
call through `chunk_with_code_blocks`, return consecutive byte-identical
fragments — no fragment-level deduplication happens. -/
theorem chunker_consecutive_duplicates_counterexample :
    chunk_text (str "aaaa") 2 1 = [str "aa", str "aa", str "aa", str "a"] ∧
    chunk_with_code_blocks (str "aaaa") 2 1 =
      [str "aa", str "aa", str "aa", str "a"] ∧
    (chunk_text (str "aaaa") 2 1).get? 0 = (chunk_text (str "aaaa") 2 1).get? 1 := by
  refine ⟨by decide, by decide, by decide⟩

/-! ### Idempotence of the line-level noise filters (claim C9) -/

theorem cleanGo_keep :
    ∀ {ls : List Str} {prev : Option Str} {l : Str},
      l ∈ Formatter.cleanGo prev ls →
      (pyStrip l).isEmpty = false ∧ Formatter.isJunk l = false := by
  intro ls
  induction ls with
  | nil => intro prev l h; cases h
  | cons x xs ih =>
    intro prev l h
    rw [Formatter.cleanGo] at h
    by_cases h1 : (pyStrip x).isEmpty
    · rw [if_pos h1] at h; exact ih h
    · rw [if_neg h1] at h
      by_cases h2 : Formatter.isJunk x
      · rw [if_pos h2] at h; exact ih h
      · rw [if_neg h2] at h
        by_cases h3 : Formatter.prevDup prev x = true
        · rw [if_pos h3] at h; exact ih h
        · rw [if_neg h3] at h
          rcases List.mem_cons.mp h with rfl | h
          · exact ⟨Bool.not_eq_true _ ▸ (by simpa using h1),
              Bool.not_eq_true _ ▸ (by simpa using h2)⟩
          · exact ih h

theorem cleanGo_chain_aux :
    ∀ (ls : List Str) (p : Str), p ≠ [] →
      List.Chain' (fun a b => pyStrip a ≠ pyStrip b)
        (p :: Formatter.cleanGo (some p) ls) := by
  intro ls
  induction ls with
  | nil => intro p _; simp [Formatter.cleanGo]
  | cons x xs ih =>
    intro p hp
    rw [Formatter.cleanGo]
    by_cases h1 : (pyStrip x).isEmpty
    · rw [if_pos h1]; exact ih p hp
    · rw [if_neg h1]
      by_cases h2 : Formatter.isJunk x
      · rw [if_pos h2]; exact ih p hp
      · rw [if_neg h2]
        by_cases h3 : Formatter.prevDup (some p) x = true
        · rw [if_pos h3]; exact ih p hp
        · rw [if_neg h3, List.chain'_cons]
          have hxne : x ≠ [] := by
            intro hx
            rw [hx] at h1
            exact h1 (by decide)
          refine ⟨?_, ih x hxne⟩
          rw [Formatter.prevDup] at h3
          simp only [Bool.and_eq_true, Bool.not_eq_true', List.isEmpty_iff,
            beq_iff_eq] at h3
          intro heq
          exact h3 ⟨by simpa [List.isEmpty_iff] using hp, heq⟩

theorem cleanGo_chain (ls : List Str) (prev : Option Str) :
    List.Chain' (fun a b => pyStrip a ≠ pyStrip b) (Formatter.cleanGo prev ls) := by
  induction ls generalizing prev with
  | nil => simp [Formatter.cleanGo]
  | cons x xs ih =>
    rw [Formatter.cleanGo]
    by_cases h1 : (pyStrip x).isEmpty
    · rw [if_pos h1]; exact ih prev
    · rw [if_neg h1]
      by_cases h2 : Formatter.isJunk x
      · rw [if_pos h2]; exact ih prev
      · rw [if_neg h2]
        by_cases h3 : Formatter.prevDup prev x = true
        · rw [if_pos h3]; exact ih prev
        · rw [if_neg h3]
          exact cleanGo_chain_aux xs x (fun hx => by
            rw [hx] at h1; exact h1 (by decide))

theorem cleanGo_eq_self :
    ∀ (ls : List Str) (prev : Option Str),
      (∀ l ∈ ls, (pyStrip l).isEmpty = false ∧ Formatter.isJunk l = false) →
      List.Chain' (fun a b => pyStrip a ≠ pyStrip b) ls →
      (∀ p, prev = some p → p ≠ [] →
        ∀ x, ls.head? = some x → pyStrip p ≠ pyStrip x) →
      Formatter.cleanGo prev ls = ls := by
  intro ls
  induction ls with
  | nil => intro prev _ _ _; rfl
  | cons x xs ih =>
    intro prev hk hc hprev
    have hx := hk x (List.mem_cons_self _ _)
    have hdup : Formatter.prevDup prev x = false := by
      cases prev with
      | none => rfl
      | some p =>
        rw [Formatter.prevDup]
        by_cases hp : p = []
        · subst hp; rfl
        · have hne := hprev p rfl hp x rfl
          rw [beq_eq_false_iff_ne.mpr hne, Bool.and_false]
    rw [Formatter.cleanGo, if_neg (by simp [hx.1]), if_neg (by simp [hx.2]),
      if_neg (by simp [hdup])]
    refine congrArg (x :: ·) (ih (some x) (fun l hl => hk l (List.mem_cons_of_mem _ hl))
      (List.chain'_cons'.mp hc).2 ?_)
    intro p hp hpne y hy
    injection hp with hp
    subst hp
    exact (List.chain'_cons'.mp hc).1 y hy

/-- Claim C9: both line-level noise filters — `formatter.clean_lines`
(blank-line removal, boilerplate-phrase removal, consecutive collapse of
lines with identical stripped text) and
`text_utils.clean_nav_footer_noise` (blank-line removal,
boilerplate-substring removal, consecutive byte-identical duplicate
collapse) — are idempotent. -/
theorem noise_filter_idempotent :
    (∀ ls : List Str,
      Formatter.clean_lines (Formatter.clean_lines ls) = Formatter.clean_lines ls) ∧
    (∀ s : Str,
      clean_nav_footer_noise (clean_nav_footer_noise s) = clean_nav_footer_noise s) := by
  constructor
  · intro ls
    unfold Formatter.clean_lines
    exact cleanGo_eq_self _ none (fun l hl => cleanGo_keep hl)
      (cleanGo_chain ls none) (fun p hp => nomatch hp)
  · exact clean_nav_footer_noise_idem

/-! ### What the chunking presets receive (claim C10) -/

theorem keepLine_spec {l : Str} (h : keepLine l = true) :
    pyStrip l ≠ [] ∧ isNoiseLine l = false := by
  unfold keepLine at h
  simp only [Bool.and_eq_true, Bool.not_eq_true'] at h
  refine ⟨fun hn => ?_, h.2⟩
  rw [hn] at h
  exact absurd h.1 (by decide)

theorem cleanLines_mem_spec {s l : Str}
    (hl : l ∈ pySplitLines (clean_nav_footer_noise s)) :
    pyStrip l ≠ [] ∧ isNoiseLine l = false := by
  rw [cleanLines_eq] at hl
  exact keepLine_spec (List.of_mem_filter (mem_collapseDups hl))

/-- Claim C10 (amended): the presets `chunk_docs`/`chunk_code` delegate to
`chunk_with_code_blocks`, which scans the lines of
`clean_nav_footer_noise s`.  Those lines are never blank, their stripped
lowercased text never contains a boilerplate substring, and no two
consecutive ones are byte-identical; the text reaching the sliding-window
rule — the join of a contiguous run of those lines — contains no
blank-line paragraph boundary.  (Only the stripped lowercased form is
filtered, and window slicing may re-create noise substrings or duplicate
lines inside fragments; see the counterexample.) -/
theorem chunking_presets_cleaned (s : Str) :
    (chunk_docs s = chunk_with_code_blocks s 1200 150 ∧
      chunk_code s = chunk_with_code_blocks s 800 100 ∧
      ∀ m o, chunk_with_code_blocks s m o =
        cwcbLoop m o (pySplitLines (clean_nav_footer_noise s)) [] false) ∧
    (∀ l ∈ pySplitLines (clean_nav_footer_noise s),
      pyStrip l ≠ [] ∧ isNoiseLine l = false) ∧
    List.Chain' (fun a b => a ≠ b) (pySplitLines (clean_nav_footer_noise s)) ∧
    (∀ ls : List Str, ls <:+: pySplitLines (clean_nav_footer_noise s) →
      pyContains (pyJoinNL ls) nn = false) := by
  refine ⟨⟨rfl, rfl, fun m o => rfl⟩, fun l hl => cleanLines_mem_spec hl, ?_, ?_⟩
  · rw [cleanLines_eq]
    exact chain'_collapseDups _
  · intro ls hinf
    apply pyJoinNL_no_nn
    intro l hl
    have hmem : l ∈ pySplitLines (clean_nav_footer_noise s) :=
      hinf.sublist.subset hl
    refine ⟨?_, ?_⟩
    · intro hnil
      exact (cleanLines_mem_spec hmem).1 (by rw [hnil]; rfl)
    · intro c hc hcn
      have := pySplitLines_mem_noBreak hmem c hc
      rw [hcn] at this
      exact absurd this (by decide)

/-- Witness for the amended C10 at the input `"x\ny"` with the
single-line run `["x"]`. -/
theorem chunking_presets_cleaned_witness :
    pyContains (pyJoinNL [str "x"]) nn = false ∧
    (∀ l ∈ pySplitLines (clean_nav_footer_noise (str "x\ny")),
      pyStrip l ≠ [] ∧ isNoiseLine l = false) :=
  ⟨(chunking_presets_cleaned (str "x\ny")).2.2.2 [str "x"]
      ⟨[], [str "y"], by decide⟩,
    (chunking_presets_cleaned (str "x\ny")).2.1⟩

/-- Counterexample to C10 as stated: the kept line `"version "` (kept
because its STRIPPED lowercased text `"version"` matches no boilerplate
substring) reaches a fragment whose lowercased text does contain the
boilerplate substring `"version "`. -/
theorem chunk_docs_noise_line_counterexample :
    chunk_docs (str "a\nversion \nb") = [str "a\nversion \nb"] ∧
    str "version " ∈ noiseSubs ∧
    (pySplitLines (str "a\nversion \nb")).any
      (fun l => pyContains (pyLower l) (str "version ")) = true := by
  refine ⟨by decide, by decide, by decide⟩

/-! ### Atomicity of fenced code blocks (claim C2) -/

theorem cwcbLoop_nil (m o : Nat) (buffer : List Str) (ic : Bool) :
    cwcbLoop m o [] buffer ic =
      if buffer.isEmpty then []
      else if (pyStrip (pyJoinNL buffer)).isEmpty then []
      else if ic then [pyStrip (pyJoinNL buffer)]
      else chunk_text (pyStrip (pyJoinNL buffer)) m o := rfl

theorem cwcbLoop_cons (m o : Nat) (line : Str) (rest buffer : List Str) (ic : Bool) :
    cwcbLoop m o (line :: rest) buffer ic =
      if isFenceLine line then
        if ic then
          (if (pyStrip (pyJoinNL (buffer ++ [line]))).isEmpty then []
           else [pyStrip (pyJoinNL (buffer ++ [line]))]) ++ cwcbLoop m o rest [] false
        else
          (if buffer.isEmpty then []
           else if (pyStrip (pyJoinNL buffer)).isEmpty then []
           else chunk_text (pyStrip (pyJoinNL buffer)) m o) ++
            cwcbLoop m o rest [line] true
      else cwcbLoop m o rest (buffer ++ [line]) ic := rfl

theorem cwcbLoop_noFence (m o : Nat) {line : Str} (h : isFenceLine line = false)
    (rest buffer : List Str) (ic : Bool) :
    cwcbLoop m o (line :: rest) buffer ic =
      cwcbLoop m o rest (buffer ++ [line]) ic := by
  rw [cwcbLoop_cons, if_neg (by simp [h])]

theorem cwcbLoop_open (m o : Nat) {line : Str} (h : isFenceLine line = true)
    (rest buffer : List Str) :
    cwcbLoop m o (line :: rest) buffer false =
      (if buffer.isEmpty then []
       else if (pyStrip (pyJoinNL buffer)).isEmpty then []
       else chunk_text (pyStrip (pyJoinNL buffer)) m o) ++
        cwcbLoop m o rest [line] true := by
  rw [cwcbLoop_cons, if_pos h, if_neg (by decide)]

theorem cwcbLoop_close (m o : Nat) {line : Str} (h : isFenceLine line = true)
    (rest buffer : List Str) :
    cwcbLoop m o (line :: rest) buffer true =
      (if (pyStrip (pyJoinNL (buffer ++ [line]))).isEmpty then []
       else [pyStrip (pyJoinNL (buffer ++ [line]))]) ++ cwcbLoop m o rest [] false := by
  rw [cwcbLoop_cons, if_pos h, if_pos rfl]

theorem cwcbLoop_append_noFence {m o : Nat} :
    ∀ {mid : List Str}, (∀ l ∈ mid, isFenceLine l = false) →
      ∀ (rest buf : List Str) (ic : Bool),
        cwcbLoop m o (mid ++ rest) buf ic = cwcbLoop m o rest (buf ++ mid) ic := by
  intro mid
  induction mid with
  | nil => intro _ rest buf ic; simp
  | cons x xs ih =>
    intro h rest buf ic
    rw [List.cons_append,
      cwcbLoop_noFence m o (h x (List.mem_cons_self _ _)) (xs ++ rest) buf ic,
      ih (fun l hl => h l (List.mem_cons_of_mem _ hl)) rest (buf ++ [x]) ic]
    simp

/-- The number of fence-marker lines of a line list. -/
def fenceCount (ls : List Str) : Nat := (ls.filter (fun l => isFenceLine l)).length

theorem fenceCount_cons (x : Str) (xs : List Str) :
    fenceCount (x :: xs) = (if isFenceLine x then 1 else 0) + fenceCount xs := by
  unfold fenceCount
  rw [List.filter_cons]
  split
  · simp [Nat.add_comm]
  · simp

theorem cwcbLoop_consume {m o : Nat} :
    ∀ (n : Nat) (lines : List Str), lines.length ≤ n →
      ∀ (rest buf : List Str) (ic : Bool),
        (fenceCount lines + (if ic then 1 else 0)) % 2 = 0 →
        ∃ A buf', cwcbLoop m o (lines ++ rest) buf ic =
          A ++ cwcbLoop m o rest buf' false := by
  intro n
  induction n with
  | zero =>
    intro lines hlen rest buf ic hpar
    have hnil : lines = [] := List.length_eq_zero.mp (Nat.le_zero.mp hlen)
    subst hnil
    cases ic with
    | false => exact ⟨[], buf, by simp⟩
    | true => simp [fenceCount] at hpar
  | succ n ih =>
    intro lines hlen rest buf ic hpar
    cases lines with
    | nil =>
      cases ic with
      | false => exact ⟨[], buf, by simp⟩
      | true => simp [fenceCount] at hpar
    | cons x xs =>
      simp only [List.length_cons] at hlen
      rw [fenceCount_cons] at hpar
      by_cases hf : isFenceLine x
      · rw [if_pos hf] at hpar
        cases ic with
        | true =>
          rw [List.cons_append, cwcbLoop_close m o hf (xs ++ rest) buf]
          have hpar' : fenceCount xs % 2 = 0 := by simp at hpar; omega
          obtain ⟨A, buf', hA⟩ := ih xs (by omega) rest [] false
            (by simpa using hpar')
          refine ⟨(if (pyStrip (pyJoinNL (buf ++ [x]))).isEmpty then []
            else [pyStrip (pyJoinNL (buf ++ [x]))]) ++ A, buf', ?_⟩
          rw [hA, List.append_assoc]
        | false =>
          rw [List.cons_append, cwcbLoop_open m o hf (xs ++ rest) buf]
          have hpar' : (fenceCount xs + 1) % 2 = 0 := by simp at hpar; omega
          obtain ⟨A, buf', hA⟩ := ih xs (by omega) rest [x] true
            (by simpa using hpar')
          refine ⟨(if buf.isEmpty then []
            else if (pyStrip (pyJoinNL buf)).isEmpty then []
            else chunk_text (pyStrip (pyJoinNL buf)) m o) ++ A, buf', ?_⟩
          rw [hA, List.append_assoc]
      · rw [if_neg hf] at hpar
        rw [List.cons_append, cwcbLoop_noFence m o (by simpa using hf) (xs ++ rest) buf ic]
        exact ih xs (by omega) rest (buf ++ [x]) ic (by omega)

theorem strip_join_fence_ne_nil {op : Str} (hop : isFenceLine op = true)
    (ls : List Str) : pyStrip (pyJoinNL (op :: ls)) ≠ [] := by
  have h1 : '`' ∈ pyStrip op := by
    unfold isFenceLine at hop
    obtain ⟨t, ht⟩ := List.isPrefixOf_iff_prefix.mp hop
    rw [← ht]
    exact List.mem_append.mpr (Or.inl (by decide))
  have h2 : '`' ∈ op := mem_pyStrip h1
  have h3 : '`' ∈ pyJoinNL (op :: ls) := by
    cases ls with
    | nil => exact h2
    | cons y ys =>
      rw [pyJoinNL]
      exact List.mem_append.mpr (Or.inl h2)
  exact pyStrip_ne_nil_of_mem h3 (by decide)

/-- Claim C2 (amended): every fenced block of the NOISE-FILTERED text —
from a line whose stripped text starts with three backticks, following an
even number of fence lines, to the next fence line inclusive — is emitted
by `chunk_with_code_blocks` whole, as exactly one fragment, never split,
whatever `maxChars` is; an opened but never closed trailing fence is
still flushed whole as the final fragment.  (The noise filter runs before
the scan, so lines it drops — boilerplate matches, blank lines, repeated
adjacent lines — are no longer part of the block; see the
counterexample.) -/
theorem cwcb_code_block_atomic (s : Str) (m o : Nat) :
    (∀ (pre mid post : List Str) (op cl : Str),
      pySplitLines (clean_nav_footer_noise s) = pre ++ op :: (mid ++ cl :: post) →
      fenceCount pre % 2 = 0 → isFenceLine op = true →
      (∀ l ∈ mid, isFenceLine l = false) → isFenceLine cl = true →
      ∃ A B, chunk_with_code_blocks s m o =
        A ++ pyStrip (pyJoinNL (op :: (mid ++ [cl]))) :: B) ∧
    (∀ (pre mid : List Str) (op : Str),
      pySplitLines (clean_nav_footer_noise s) = pre ++ op :: mid →
      fenceCount pre % 2 = 0 → isFenceLine op = true →
      (∀ l ∈ mid, isFenceLine l = false) →
      ∃ A, chunk_with_code_blocks s m o =
        A ++ [pyStrip (pyJoinNL (op :: mid))]) := by
  constructor
  · intro pre mid post op cl hsplit hpre hop hmid hcl
    unfold chunk_with_code_blocks
    rw [hsplit]
    obtain ⟨A, buf', hA⟩ := @cwcbLoop_consume m o pre.length pre
      (le_refl _) (op :: (mid ++ cl :: post)) [] false (by simpa using hpre)
    rw [hA, cwcbLoop_open m o hop (mid ++ cl :: post) buf',
      cwcbLoop_append_noFence hmid (cl :: post) [op] true,
      cwcbLoop_close m o hcl post ([op] ++ mid)]
    set P := (if buf'.isEmpty then []
      else if (pyStrip (pyJoinNL buf')).isEmpty then []
      else chunk_text (pyStrip (pyJoinNL buf')) m o) with hP
    have hls : ([op] ++ mid) ++ [cl] = op :: (mid ++ [cl]) := by simp
    rw [hls]
    have hbne : (pyStrip (pyJoinNL (op :: (mid ++ [cl])))).isEmpty = false := by
      cases hE : (pyStrip (pyJoinNL (op :: (mid ++ [cl])))).isEmpty with
      | false => rfl
      | true =>
        exact absurd (List.isEmpty_iff.mp hE)
          (strip_join_fence_ne_nil hop (mid ++ [cl]))
    rw [hbne, if_neg (by decide)]
    exact ⟨A ++ P, cwcbLoop m o post [] false, by simp [List.append_assoc]⟩
  · intro pre mid op hsplit hpre hop hmid
    unfold chunk_with_code_blocks
    rw [hsplit]
    obtain ⟨A, buf', hA⟩ := @cwcbLoop_consume m o pre.length pre
      (le_refl _) (op :: mid) [] false (by simpa using hpre)
    rw [hA, cwcbLoop_open m o hop mid buf', ← List.append_nil mid,
      cwcbLoop_append_noFence hmid [] [op] true,
      cwcbLoop_nil m o ([op] ++ mid) true]
    set P := (if buf'.isEmpty then []
      else if (pyStrip (pyJoinNL buf')).isEmpty then []
      else chunk_text (pyStrip (pyJoinNL buf')) m o) with hP
    have hls : ([op] ++ mid : List Str) = op :: mid := by simp
    rw [hls]
    have hbne : (pyStrip (pyJoinNL (op :: mid))).isEmpty = false := by
      cases hE : (pyStrip (pyJoinNL (op :: mid))).isEmpty with
      | false => rfl
      | true =>
        exact absurd (List.isEmpty_iff.mp hE) (strip_join_fence_ne_nil hop mid)
    rw [List.isEmpty_cons, if_neg (by decide), hbne, if_neg (by decide),
      if_pos rfl]
    exact ⟨A ++ P, by simp [List.append_assoc]⟩

/-- Witness for the amended C2: a closed block at
`"p\n```\ncode\n```\nq"` and an unterminated one at `"u\n```\nend"`,
both with the `chunk_docs` parameters. -/
theorem cwcb_code_block_atomic_witness :
    (∃ A B, chunk_with_code_blocks (str "p\n```\ncode\n```\nq") 1200 150 =
      A ++ pyStrip (pyJoinNL (str "```" :: ([str "code"] ++ [str "```"]))) :: B) ∧
    (∃ A, chunk_with_code_blocks (str "u\n```\nend") 1200 150 =
      A ++ [pyStrip (pyJoinNL (str "```" :: [str "end"]))]) :=
  ⟨(cwcb_code_block_atomic (str "p\n```\ncode\n```\nq") 1200 150).1
      [str "p"] [str "code"] [str "q"] (str "```") (str "```")
      (by decide) (by decide) (by decide) (by decide) (by decide),
    (cwcb_code_block_atomic (str "u\n```\nend") 1200 150).2
      [str "u"] [str "end"] (str "```")
      (by decide) (by decide) (by decide) (by decide)⟩

/-- Counterexample to C2 as stated: the noise filter drops the line
`"hello copy"` (substring `"copy"`) and then collapses the two adjacent
fence lines, so no fragment contains the original block. -/
theorem cwcb_atomicity_counterexample :
    chunk_with_code_blocks (str "```\nhello copy\n```") 1200 150 = [str "```"] ∧
    str "```\nhello copy\n```" ∉
      chunk_with_code_blocks (str "```\nhello copy\n```") 1200 150 := by
  refine ⟨by decide, by decide⟩

/-! ### Include and exclude globs (claim C6) -/

/-- Claim C6: exclude globs are evaluated first and always win
(case-insensitive shell-glob match of the full URL, both sides lowered);
with no exclude match and a truthy include list the URL is kept iff at
least one include glob matches; with no exclude match and an empty or
absent include list every URL is kept. -/
theorem should_keep_url_spec (u : Str) (inc exc : Option (List Str)) :
    ((∃ g ∈ exc.getD [], fnmatch (pyLower u) (pyLower g) = true) →
      should_keep_url u inc exc = false) ∧
    ((∀ g ∈ exc.getD [], fnmatch (pyLower u) (pyLower g) = false) →
      truthy inc = true →
      (should_keep_url u inc exc = true ↔
        ∃ g ∈ inc.getD [], fnmatch (pyLower u) (pyLower g) = true)) ∧
    ((∀ g ∈ exc.getD [], fnmatch (pyLower u) (pyLower g) = false) →
      truthy inc = false → should_keep_url u inc exc = true) := by
  unfold should_keep_url
  refine ⟨?_, ?_, ?_⟩
  · intro h
    obtain ⟨g, hg, hm⟩ := h
    rw [if_pos (List.any_eq_true.mpr ⟨g, hg, hm⟩)]
  · intro hexc htr
    have hnone : (exc.getD []).any
        (fun g => fnmatch (pyLower u) (pyLower g)) = false := by
      cases hx : (exc.getD []).any (fun g => fnmatch (pyLower u) (pyLower g)) with
      | false => rfl
      | true =>
        obtain ⟨g, hg, hm⟩ := List.any_eq_true.mp hx
        rw [hexc g hg] at hm
        cases hm
    rw [if_neg (by simp [hnone]), if_pos htr]
    exact List.any_eq_true
  · intro hexc hfalse
    have hnone : (exc.getD []).any
        (fun g => fnmatch (pyLower u) (pyLower g)) = false := by
      cases hx : (exc.getD []).any (fun g => fnmatch (pyLower u) (pyLower g)) with
      | false => rfl
      | true =>
        obtain ⟨g, hg, hm⟩ := List.any_eq_true.mp hx
        rw [hexc g hg] at hm
        cases hm
    rw [if_neg (by simp [hnone]), if_neg (by simp [hfalse])]

/-- Witness for C6: an exclude match dropping a URL that also matches an
include; a kept URL characterised by its include matches; an empty
include list admitting everything not excluded. -/
theorem should_keep_url_spec_witness :
    should_keep_url (str "https://x.test/docs/a") (some [str "*docs*"])
      (some [str "*docs*"]) = false ∧
    (should_keep_url (str "https://x.test/docs/a") (some [str "*docs*"])
        (some [str "*evil*"]) = true ↔
      ∃ g ∈ (some [str "*docs*"]).getD [],
        fnmatch (pyLower (str "https://x.test/docs/a")) (pyLower g) = true) ∧
    should_keep_url (str "https://x.test/docs/a") none
      (some [str "*evil*"]) = true := by
  refine ⟨?_, ?_, ?_⟩
  · exact (should_keep_url_spec (str "https://x.test/docs/a")
      (some [str "*docs*"]) (some [str "*docs*"])).1
      ⟨str "*docs*", by decide, by decide⟩
  · exact (should_keep_url_spec (str "https://x.test/docs/a")
      (some [str "*docs*"]) (some [str "*evil*"])).2.1 (by decide) (by decide)
  · exact (should_keep_url_spec (str "https://x.test/docs/a")
      none (some [str "*evil*"])).2.2 (by decide) (by decide)

/-! ### Same-origin restriction of the crawler (claim C5) -/

theorem crawlLoop_netloc_inv (net : Net) (robots_ok : Url → Bool)
    (inc exc : Option (List Str)) (start : Url) (maxPages : Nat) :
    ∀ (fuel : Nat) (queue visited : List Url) (records : List PageRecord)
      (fetched : List Url),
      (∀ q ∈ queue, q.netloc = start.netloc) →
      (∀ r ∈ records, r.url.netloc = start.netloc) →
      (∀ f ∈ fetched, f.netloc = start.netloc) →
      (∀ r ∈ (crawlLoop net robots_ok inc exc start maxPages fuel queue visited
          records fetched).1, r.url.netloc = start.netloc) ∧
      (∀ f ∈ (crawlLoop net robots_ok inc exc start maxPages fuel queue visited
          records fetched).2, f.netloc = start.netloc) := by
  intro fuel
  induction fuel with
  | zero =>
    intro queue visited records fetched _ hr hf
    rw [crawlLoop]
    exact ⟨hr, hf⟩
  | succ n ih =>
    intro queue visited records fetched hq hr hf
    cases queue with
    | nil =>
      rw [crawlLoop]
      exact ⟨hr, hf⟩
    | cons url rest =>
      have hurl : url.netloc = start.netloc := hq url (List.mem_cons_self _ _)
      have hrest : ∀ q ∈ rest, q.netloc = start.netloc :=
        fun q hq' => hq q (List.mem_cons_of_mem _ hq')
      rw [crawlLoop]
      by_cases h1 : maxPages ≤ visited.length
      · rw [if_pos h1]; exact ⟨hr, hf⟩
      · rw [if_neg h1]
        by_cases h2 : url ∈ visited
        · rw [if_pos h2]; exact ih rest visited records fetched hrest hr hf
        · rw [if_neg h2]
          simp only []
          by_cases h3 : (!same_domain start url) = true
          · rw [if_pos h3]
            exact ih rest (visited ++ [url]) records fetched hrest hr hf
          · rw [if_neg h3]
            by_cases h4 : (!robots_ok url) = true
            · rw [if_pos h4]
              exact ih rest (visited ++ [url]) records fetched hrest hr hf
            · rw [if_neg h4]
              by_cases h5 : (!should_keep_url url.toStr inc exc) = true
              · rw [if_pos h5]
                exact ih rest (visited ++ [url]) records fetched hrest hr hf
              · rw [if_neg h5]
                have hf' : ∀ f ∈ fetched ++ [url], f.netloc = start.netloc := by
                  intro f hfm
                  rcases List.mem_append.mp hfm with hfm | hfm
                  · exact hf f hfm
                  · rcases List.mem_singleton.mp hfm with rfl
                    exact hurl
                rcases hfetch : net.fetch url with _ | ⟨ctRaw, content⟩
                · exact ih rest (visited ++ [url]) records (fetched ++ [url])
                    hrest hr hf'
                · simp only []
                  by_cases h6 : (!pyContains (pyLower ctRaw) (str "text/html") &&
                      !(DOC_EXTS.any fun e =>
                        pyEndsWith (pyLower url.toStr) e)) = true
                  · rw [if_pos h6]
                    exact ih rest (visited ++ [url]) records (fetched ++ [url])
                      hrest hr hf'
                  · rw [if_neg h6]
                    by_cases h7 : is_probably_binary url.toStr = true
                    · rw [if_pos h7]
                      exact ih rest (visited ++ [url]) records (fetched ++ [url])
                        hrest hr hf'
                    · rw [if_neg h7]
                      by_cases h8 : pyContains (pyLower ctRaw)
                          (str "text/html") = true
                      · rw [if_pos h8]
                        refine ih _ (visited ++ [url]) _ (fetched ++ [url])
                          ?_ ?_ hf'
                        · intro q hq'
                          rcases List.mem_append.mp hq' with hq' | hq'
                          · exact hrest q hq'
                          · have hcond := List.of_mem_filter hq'
                            simp only [Bool.and_eq_true] at hcond
                            have hsd := hcond.2
                            unfold same_domain at hsd
                            simp only [Bool.and_eq_true, beq_iff_eq] at hsd
                            exact hsd.1.symm
                        · intro r hrm
                          rcases List.mem_append.mp hrm with hrm | hrm
                          · exact hr r hrm
                          · rcases List.mem_singleton.mp hrm with rfl
                            split <;> exact hurl
                      · rw [if_neg h8]
                        refine ih rest (visited ++ [url]) _ (fetched ++ [url])
                          hrest ?_ hf'
                        intro r hrm
                        rcases List.mem_append.mp hrm with hrm | hrm
                        · exact hr r hrm
                        · rcases List.mem_singleton.mp hrm with rfl
                          split <;> exact hurl


/-- Claim C5, corrected: the crawl never touches a URL of a different
network authority — every returned record is for a URL of the start
URL's netloc and the fetch trace only holds such URLs — but a differing
scheme alone does not cause discard, since `same_domain` never consults
the start URL's scheme. -/
theorem crawl_cross_netloc_untouched (net : Net) (robots_ok : Url → Bool)
    (inc exc : Option (List Str)) (start : Url) (maxPages fuel : Nat)
    (u : Url) (h : u.netloc ≠ start.netloc) :
    (∀ r ∈ (crawl net robots_ok inc exc start maxPages fuel).1, r.url ≠ u) ∧
    u ∉ (crawl net robots_ok inc exc start maxPages fuel).2 := by
  have hinv := crawlLoop_netloc_inv net robots_ok inc exc start maxPages fuel
    [start] [] [] []
    (by intro q hq; rcases List.mem_singleton.mp hq with rfl; rfl)
    (by intro r hr; cases hr) (by intro f hf; cases hf)
  unfold crawl
  refine ⟨?_, ?_⟩
  · intro r hr hru
    exact h (hru ▸ hinv.1 r hr)
  · intro hu
    exact h (hinv.2 u hu)

/-- Counterexample to C5 as stated: starting from `http://x.test/a`, the
discovered link `https://x.test/b` has a different scheme than the start
URL, yet it is fetched and a record for it is returned — `same_domain`
compares netlocs only and accepts any `http` or `https` candidate
scheme. -/
theorem crawl_scheme_crossover_counterexample :
    cexCand.scheme ≠ cexStart.scheme ∧
    cexCand ∈ (crawl cexNet (fun _ => true) none none cexStart 10 5).2 ∧
    ∃ r ∈ (crawl cexNet (fun _ => true) none none cexStart 10 5).1,
      r.url = cexCand := by
  refine ⟨by decide, by decide, by decide⟩

/-- Witness for C5 at the concrete crawl of the counterexample
collaborators and the cross-host URL `https://y.test/b`. -/
theorem crawl_cross_netloc_untouched_witness :
    (∀ r ∈ (crawl cexNet (fun _ => true) none none cexStart 10 5).1,
      r.url ≠ { scheme := str "https", netloc := str "y.test", rest := str "/b" }) ∧
    ({ scheme := str "https", netloc := str "y.test", rest := str "/b" } : Url) ∉
      (crawl cexNet (fun _ => true) none none cexStart 10 5).2 :=
  crawl_cross_netloc_untouched cexNet (fun _ => true) none none cexStart 10 5
    { scheme := str "https", netloc := str "y.test", rest := str "/b" }
    (by decide)

/-- Witness for C1 at the input `"hello world"` with `maxChars = 5`,
`overlap = 2`. -/
theorem chunk_text_forward_progress_witness :
    (chunkTextLoop ((pyStrip (str "hello world")).length + 1)
        (pyStrip (str "hello world")) 5 2 0).isSome = true ∧
    (pyStrip (str "hello world") ≠ [] → chunk_text (str "hello world") 5 2 ≠ []) ∧
    (∀ c ∈ chunk_text (str "hello world") 5 2, pyStrip c ≠ []) ∧
    (∀ start, start < chunkNext (pyStrip (str "hello world")) 5 2 start) ∧
    (∀ start, chunkCut (pyStrip (str "hello world")) 5 start ≤ start + 2 →
      chunkNext (pyStrip (str "hello world")) 5 2 start = start + 5) :=
  chunk_text_forward_progress (str "hello world") 5 2 (by decide)

theorem countTriple_triple (t : Str) :
    Frontmatter.countTriple ('`' :: '`' :: '`' :: t) =
      1 + Frontmatter.countTriple t := rfl

theorem bt3_prefix_elim {s : Str} (h : bt3.isPrefixOf s = true) :
    ∃ t, s = '`' :: '`' :: '`' :: t := by
  obtain ⟨t, ht⟩ := List.isPrefixOf_iff_prefix.mp h
  exact ⟨t, ht.symm⟩

theorem countTriple_cons_no (c : Char) (t : Str)
    (h : bt3.isPrefixOf (c :: t) = false) :
    Frontmatter.countTriple (c :: t) = Frontmatter.countTriple t := by
  conv_lhs => rw [Frontmatter.countTriple.eq_def]
  split
  · rename_i t' heq
    injection heq with h1 h2
    subst h1
    subst h2
    rw [show bt3.isPrefixOf ('`' :: '`' :: '`' :: t') = true from by
      simp [bt3, List.isPrefixOf]] at h
    exact nomatch h
  · rename_i c' t' heq
    injection heq with h1 h2
    subst h1
    subst h2
    rfl
  · rename_i heq
    exact nomatch heq

theorem countTriple_cons_of_not3 (c : Char) (t : Str)
    (h : ¬ ∃ t', c :: t = '`' :: '`' :: '`' :: t') :
    Frontmatter.countTriple (c :: t) = Frontmatter.countTriple t := by
  apply countTriple_cons_no
  cases hb : bt3.isPrefixOf (c :: t) with
  | false => rfl
  | true => exact absurd (bt3_prefix_elim hb) h

theorem countTriple_cons_ne (c : Char) (t : Str) (h : c ≠ '`') :
    Frontmatter.countTriple (c :: t) = Frontmatter.countTriple t := by
  apply countTriple_cons_of_not3
  rintro ⟨t', ht⟩
  injection ht with h1 _
  exact h h1

theorem countTriple_one_bt (r : Str) (h : r.head? ≠ some '`') :
    Frontmatter.countTriple ('`' :: r) = Frontmatter.countTriple r := by
  apply countTriple_cons_of_not3
  rintro ⟨t', ht⟩
  injection ht with _ h2
  exact h (by rw [h2]; rfl)

theorem countTriple_two_bt (r : Str) (h : r.head? ≠ some '`') :
    Frontmatter.countTriple ('`' :: '`' :: r) = Frontmatter.countTriple r := by
  rw [countTriple_cons_of_not3, countTriple_one_bt r h]
  rintro ⟨t', ht⟩
  injection ht with _ h2
  injection h2 with _ h3
  exact h (by rw [h3]; rfl)

theorem countTriple_append_of_no_bt (p X : Str) :
    (∀ c ∈ p, c ≠ '`') →
      Frontmatter.countTriple (p ++ X) = Frontmatter.countTriple X := by
  induction p with
  | nil => intro _; rfl
  | cons c p ih =>
    intro h
    rw [List.cons_append, countTriple_cons_ne c _ (h c (List.mem_cons_self _ _))]
    exact ih (fun d hd => h d (List.mem_cons_of_mem _ hd))

theorem countTriple_run (k : Nat) (r : Str) (h : r.head? ≠ some '`') :
    Frontmatter.countTriple (List.replicate k '`' ++ r) =
      k / 3 + Frontmatter.countTriple r := by
  induction k using Nat.strong_induction_on with
  | _ k ih =>
    match k with
    | 0 => simp
    | 1 =>
      rw [show List.replicate 1 '`' ++ r = '`' :: r from rfl,
        countTriple_one_bt r h]
      omega
    | 2 =>
      rw [show List.replicate 2 '`' ++ r = '`' :: '`' :: r from rfl,
        countTriple_two_bt r h]
      omega
    | (m + 3) =>
      rw [show List.replicate (m + 3) '`' ++ r =
          '`' :: '`' :: '`' :: (List.replicate m '`' ++ r) from by
        simp [List.replicate_succ, List.replicate_add]]
      rw [countTriple_triple, ih m (by omega)]
      omega

theorem subJson_nil : Frontmatter.subJsonLabel [] = [] := by
  rw [Frontmatter.subJsonLabel.eq_def]

theorem subJson_cons (c : Char) (t : Str) :
    Frontmatter.subJsonLabel (c :: t) =
      if bt3.isPrefixOf (c :: t) then
        if ((t.drop 2).dropWhile pyIsSpace).head? = some lbrace then
          str "```json\n" ++ lbrace ::
            Frontmatter.subJsonLabel (((t.drop 2).dropWhile pyIsSpace).drop 1)
        else c :: Frontmatter.subJsonLabel t
      else c :: Frontmatter.subJsonLabel t := by
  conv_lhs => rw [Frontmatter.subJsonLabel.eq_def]

theorem subJson_head (s : Str) :
    (Frontmatter.subJsonLabel s).head? = s.head? := by
  cases s with
  | nil => rw [subJson_nil]
  | cons c t =>
    rw [subJson_cons]
    by_cases h1 : bt3.isPrefixOf (c :: t) = true
    · rw [if_pos h1]
      by_cases h2 : ((t.drop 2).dropWhile pyIsSpace).head? = some lbrace
      · rw [if_pos h2]
        obtain ⟨t', ht⟩ := bt3_prefix_elim h1
        injection ht with hc _
        rw [hc]
        rfl
      · rw [if_neg h2]
        rfl
    · rw [if_neg h1]
      rfl

theorem subJson_run (k : Nat) (r : Str) (h : r.head? ≠ some '`') :
    Frontmatter.subJsonLabel (List.replicate k '`' ++ r) =
      if 3 ≤ k ∧ (r.dropWhile pyIsSpace).head? = some lbrace then
        List.replicate (k - 3) '`' ++ str "```json\n" ++ lbrace ::
          Frontmatter.subJsonLabel ((r.dropWhile pyIsSpace).drop 1)
      else List.replicate k '`' ++ Frontmatter.subJsonLabel r := by
  induction k with
  | zero =>
    rw [if_neg (fun hp => absurd hp.1 (by omega))]
    simp
  | succ m ih =>
    cases m with
    | zero =>
      have hb : ¬ bt3.isPrefixOf ('`' :: r) = true := by
        intro hb
        obtain ⟨t', ht⟩ := bt3_prefix_elim hb
        injection ht with _ h2
        exact h (by rw [h2]; rfl)
      rw [show List.replicate 1 '`' ++ r = '`' :: r from rfl, subJson_cons,
        if_neg hb, if_neg (fun hp => absurd hp.1 (by omega))]
      rfl
    | succ m =>
      cases m with
      | zero =>
        have hb : ¬ bt3.isPrefixOf ('`' :: ('`' :: r)) = true := by
          intro hb
          obtain ⟨t', ht⟩ := bt3_prefix_elim hb
          injection ht with _ h2
          injection h2 with _ h3
          exact h (by rw [h3]; rfl)
        rw [show List.replicate 2 '`' ++ r = '`' :: ('`' :: r) from rfl,
          subJson_cons, if_neg hb]
        have ih' := ih
        rw [show List.replicate 1 '`' ++ r = '`' :: r from rfl,
          if_neg (fun hp => absurd hp.1 (by omega))] at ih'
        rw [ih', if_neg (fun hp => absurd hp.1 (by omega))]
        rfl
      | succ m =>
        cases m with
        | zero =>
          rw [show List.replicate 3 '`' ++ r = '`' :: ('`' :: '`' :: r) from rfl,
            subJson_cons]
          have hb : bt3.isPrefixOf ('`' :: ('`' :: '`' :: r)) = true := by
            simp [bt3, List.isPrefixOf]
          rw [if_pos hb, show (('`' :: '`' :: r) : Str).drop 2 = r from rfl]
          by_cases hbr : (r.dropWhile pyIsSpace).head? = some lbrace
          · rw [if_pos hbr, if_pos ⟨by omega, hbr⟩]
            rfl
          · rw [if_neg hbr]
            have ih' := ih
            rw [show List.replicate 2 '`' ++ r = '`' :: ('`' :: r) from rfl,
              if_neg (fun hp => absurd hp.1 (by omega))] at ih'
            rw [ih', if_neg (fun hp => hbr hp.2)]
            rfl
        | succ m =>
          rw [show List.replicate (m + 4) '`' ++ r =
              '`' :: (List.replicate (m + 3) '`' ++ r) from by
            simp [List.replicate_succ, List.cons_append]]
          rw [subJson_cons]
          have hb : bt3.isPrefixOf
              ('`' :: (List.replicate (m + 3) '`' ++ r)) = true := by
            rw [show List.replicate (m + 3) '`' ++ r =
                '`' :: '`' :: (List.replicate (m + 1) '`' ++ r) from by
              simp [List.replicate_succ, List.cons_append]]
            simp [bt3, List.isPrefixOf]
          rw [if_pos hb]
          have hdrop : ((List.replicate (m + 3) '`' ++ r).drop 2) =
              List.replicate (m + 1) '`' ++ r := by
            rw [show List.replicate (m + 3) '`' ++ r =
                '`' :: ('`' :: (List.replicate (m + 1) '`' ++ r)) from by
              simp [List.replicate_succ, List.cons_append]]
            rfl
          rw [hdrop]
          have hdw : (List.replicate (m + 1) '`' ++ r).dropWhile pyIsSpace =
              List.replicate (m + 1) '`' ++ r := by
            rw [show List.replicate (m + 1) '`' ++ r =
                '`' :: (List.replicate m '`' ++ r) from by
              simp [List.replicate_succ, List.cons_append]]
            rw [List.dropWhile_cons, if_neg (by decide)]
          rw [hdw]
          have hhead : (List.replicate (m + 1) '`' ++ r).head? = some '`' := by
            rw [show List.replicate (m + 1) '`' ++ r =
                '`' :: (List.replicate m '`' ++ r) from by
              simp [List.replicate_succ, List.cons_append]]
            rfl
          rw [if_neg (by
            rw [hhead]
            intro hx
            injection hx with hx
            exact absurd hx (by decide))]
          rw [ih]
          by_cases hbr : (r.dropWhile pyIsSpace).head? = some lbrace
          · rw [if_pos ⟨by omega, hbr⟩, if_pos ⟨by omega, hbr⟩]
            rw [show m + 3 - 3 = m from by omega,
              show m + 4 - 3 = m + 1 from by omega]
            simp [List.replicate_succ, List.cons_append]
          · rw [if_neg (fun hp => hbr hp.2), if_neg (fun hp => hbr hp.2)]
            simp [List.replicate_succ, List.cons_append]

theorem countTriple_block (L : Nat) (X : Str) (h3 : 3 ≤ L) :
    Frontmatter.countTriple
        (List.replicate (L - 3) '`' ++ str "```json\n" ++ lbrace :: X) =
      L / 3 + Frontmatter.countTriple X := by
  rw [show str "```json\n" = List.replicate 3 '`' ++ str "json\n" from rfl]
  rw [show (List.replicate (L - 3) '`' ++
        (List.replicate 3 '`' ++ str "json\n")) ++ lbrace :: X =
      List.replicate (L - 3 + 3) '`' ++ (str "json\n" ++ lbrace :: X) from by
    rw [List.replicate_add]
    simp [List.append_assoc]]
  rw [show L - 3 + 3 = L from by omega]
  rw [countTriple_run L _ (by
    intro hx
    rw [show ((str "json\n" ++ (lbrace :: X)) : Str).head? = some 'j' from
      rfl] at hx
    injection hx with hx
    exact absurd hx (by decide))]
  rw [countTriple_append_of_no_bt (str "json\n") _ (by decide)]
  rw [countTriple_cons_ne _ _ (by decide)]

theorem countTriple_strip_to_brace (r : Str)
    (hbrace : (r.dropWhile pyIsSpace).head? = some lbrace) :
    Frontmatter.countTriple r =
      Frontmatter.countTriple ((r.dropWhile pyIsSpace).drop 1) := by
  have hsplit : r = r.takeWhile pyIsSpace ++ r.dropWhile pyIsSpace :=
    (List.takeWhile_append_dropWhile _ _).symm
  cases hdw : r.dropWhile pyIsSpace with
  | nil => rw [hdw] at hbrace; exact nomatch hbrace
  | cons a b =>
    rw [hdw] at hbrace
    simp only [List.head?_cons, Option.some.injEq] at hbrace
    subst hbrace
    conv_lhs => rw [hsplit, hdw]
    rw [countTriple_append_of_no_bt _ _ (by
      intro c hcmem hceq
      have hws := List.mem_takeWhile_imp hcmem
      rw [hceq] at hws
      exact absurd hws (by decide))]
    rw [countTriple_cons_ne _ _ (by decide)]
    rfl

theorem countTriple_subJsonLabel_aux :
    ∀ (n : Nat) (s : Str), s.length ≤ n →
      Frontmatter.countTriple (Frontmatter.subJsonLabel s) =
        Frontmatter.countTriple s := by
  intro n
  induction n with
  | zero =>
    intro s hs
    have hnil : s = [] := List.eq_nil_of_length_eq_zero (by omega)
    subst hnil
    rw [subJson_nil]
  | succ n ih =>
    intro s hs
    cases s with
    | nil => rw [subJson_nil]
    | cons c t =>
      by_cases hc : c = '`'
      · subst hc
        have hdecomp : ('`' :: t : Str) =
            ('`' :: t).takeWhile (fun x => x == '`') ++
              ('`' :: t).dropWhile (fun x => x == '`') :=
          (List.takeWhile_append_dropWhile _ _).symm
        set p := ('`' :: t).takeWhile (fun x => x == '`') with hp
        set r := ('`' :: t).dropWhile (fun x => x == '`') with hr
        have hrep : p = List.replicate p.length '`' := by
          apply List.eq_replicate_of_mem
          intro b hb
          have hb2 := List.mem_takeWhile_imp hb
          exact eq_of_beq hb2
        have hrhead : r.head? ≠ some '`' := by
          intro hh
          have hfalse := dropWhile_head?_false _ _ _ hh
          simp at hfalse
        have hplen : 1 ≤ p.length := by
          rw [hp]
          simp [List.takeWhile_cons]
        have hlen_pr : p.length + r.length = t.length + 1 := by
          have hlen := congrArg List.length hdecomp
          simp only [List.length_append, List.length_cons] at hlen
          omega
        rw [hdecomp, hrep, subJson_run p.length r hrhead]
        by_cases hbr : 3 ≤ p.length ∧
            (r.dropWhile pyIsSpace).head? = some lbrace
        · rw [if_pos hbr]
          rw [countTriple_block p.length _ hbr.1]
          rw [countTriple_run p.length r hrhead]
          have hd1len : ((r.dropWhile pyIsSpace).drop 1).length ≤ n := by
            have h1 : (r.dropWhile pyIsSpace).length ≤ r.length :=
              (List.dropWhile_sublist _).length_le
            have h2 : ((r.dropWhile pyIsSpace).drop 1).length =
                (r.dropWhile pyIsSpace).length - 1 := List.length_drop _ _
            simp only [List.length_cons] at hs
            omega
          rw [ih _ hd1len, countTriple_strip_to_brace r hbr.2]
        · rw [if_neg hbr]
          have hsubhead : (Frontmatter.subJsonLabel r).head? ≠ some '`' := by
            rw [subJson_head]
            exact hrhead
          rw [countTriple_run p.length _ hsubhead,
            countTriple_run p.length r hrhead]
          have hrlen : r.length ≤ n := by
            simp only [List.length_cons] at hs
            omega
          rw [ih r hrlen]
      · have hb : ¬ bt3.isPrefixOf (c :: t) = true := by
          intro hb
          obtain ⟨t', ht⟩ := bt3_prefix_elim hb
          injection ht with h1 _
          exact hc h1
        rw [subJson_cons, if_neg hb, countTriple_cons_ne c _ hc,
          countTriple_cons_ne c _ hc]
        exact ih t (by simp only [List.length_cons] at hs; omega)

theorem countTriple_subJsonLabel (s : Str) :
    Frontmatter.countTriple (Frontmatter.subJsonLabel s) =
      Frontmatter.countTriple s :=
  countTriple_subJsonLabel_aux s.length s (Nat.le_refl _)

theorem countTriple_append_close_aux :
    ∀ (n : Nat) (t : Str), t.length ≤ n →
      Frontmatter.countTriple (t ++ str "\n```") =
        Frontmatter.countTriple t + 1 := by
  intro n
  induction n with
  | zero =>
    intro t ht
    have hnil : t = [] := List.eq_nil_of_length_eq_zero (by omega)
    subst hnil
    decide
  | succ n ih =>
    intro t ht
    rcases t with _ | ⟨c, _ | ⟨d, _ | ⟨e, t2⟩⟩⟩
    · decide
    · rw [show ([c] : Str) ++ str "\n```" = c :: str "\n```" from rfl]
      rw [countTriple_cons_of_not3 _ _ (by
        rintro ⟨t', ht'⟩
        injection ht' with _ h2
        injection h2 with h3 _
        exact absurd h3 (by decide))]
      rw [countTriple_cons_of_not3 c [] (by
        rintro ⟨t', ht'⟩
        injection ht' with _ h2
        exact nomatch h2)]
      decide
    · rw [show ([c, d] : Str) ++ str "\n```" = c :: d :: str "\n```" from rfl]
      rw [countTriple_cons_of_not3 _ _ (by
        rintro ⟨t', ht'⟩
        injection ht' with _ h2
        injection h2 with _ h3
        injection h3 with h4 _
        exact absurd h4 (by decide))]
      rw [countTriple_cons_of_not3 _ _ (by
        rintro ⟨t', ht'⟩
        injection ht' with _ h2
        injection h2 with h3 _
        exact absurd h3 (by decide))]
      rw [countTriple_cons_of_not3 c [d] (by
        rintro ⟨t', ht'⟩
        injection ht' with _ h2
        injection h2 with _ h3
        exact nomatch h3)]
      rw [countTriple_cons_of_not3 d [] (by
        rintro ⟨t', ht'⟩
        injection ht' with _ h2
        exact nomatch h2)]
      decide
    · by_cases h3 : c = '`' ∧ d = '`' ∧ e = '`'
      · obtain ⟨rfl, rfl, rfl⟩ := h3
        rw [show (('`' :: '`' :: '`' :: t2 : Str) ++ str "\n```") =
            '`' :: '`' :: '`' :: (t2 ++ str "\n```") from rfl]
        rw [countTriple_triple, countTriple_triple,
          ih t2 (by simp only [List.length_cons] at ht; omega)]
        omega
      · rw [show ((c :: d :: e :: t2 : Str) ++ str "\n```") =
            c :: (d :: e :: (t2 ++ str "\n```")) from rfl]
        rw [countTriple_cons_of_not3 _ _ (by
          rintro ⟨t', ht'⟩
          injection ht' with e1 r1
          injection r1 with e2 r2
          injection r2 with e3 _
          exact h3 ⟨e1, e2, e3⟩)]
        rw [countTriple_cons_of_not3 c (d :: e :: t2) (by
          rintro ⟨t', ht'⟩
          injection ht' with e1 r1
          injection r1 with e2 r2
          injection r2 with e3 _
          exact h3 ⟨e1, e2, e3⟩)]
        exact ih (d :: e :: t2)
          (by simp only [List.length_cons] at ht ⊢; omega)

theorem countTriple_append_close (t : Str) :
    Frontmatter.countTriple (t ++ str "\n```") =
      Frontmatter.countTriple t + 1 :=
  countTriple_append_close_aux t.length t (Nat.le_refl _)

/-- Claim C7, corrected for the frontmatter assembler: when the input's
count of triple-backtick occurrences is odd, `frontmatter.wrap_code_blocks`
appends exactly one synthetic closing fence, and the JSON-labelling
rewrite that follows preserves the count, so the output holds exactly one
more fence marker than the input; when the count is even the output holds
exactly as many.  The formatter assembler gives no such guarantee (see the
counterexample). -/
theorem fence_balance_plus_one (t : Str) :
    (Frontmatter.countTriple t % 2 = 1 →
      Frontmatter.countTriple (Frontmatter.wrap_code_blocks t) =
        Frontmatter.countTriple t + 1) ∧
    (Frontmatter.countTriple t % 2 = 0 →
      Frontmatter.countTriple (Frontmatter.wrap_code_blocks t) =
        Frontmatter.countTriple t) := by
  simp only [Frontmatter.wrap_code_blocks]
  constructor
  · intro h
    rw [if_pos (by omega), countTriple_subJsonLabel, countTriple_append_close]
  · intro h
    rw [if_neg (by omega), countTriple_subJsonLabel]

/-- Witness for C7 at an input with three fence markers: the balanced
output has four. -/
theorem fence_balance_plus_one_witness :
    Frontmatter.countTriple (str "a\n```x\nb\n```\nc\n```") % 2 = 1 ∧
    Frontmatter.countTriple
        (Frontmatter.wrap_code_blocks (str "a\n```x\nb\n```\nc\n```")) =
      Frontmatter.countTriple (str "a\n```x\nb\n```\nc\n```") + 1 :=
  ⟨by decide,
    (fence_balance_plus_one (str "a\n```x\nb\n```\nc\n```")).1 (by decide)⟩

/-- Counterexample to C7 as stated for the formatter assembler: on
`"a\n```"` — one fence marker, an odd count — `formatter.wrap_code_blocks`
returns the input unchanged, because the dangling opening fence is the
last line and the final flush does nothing for an empty buffer; no
synthetic closing fence is appended and the output's count equals the
input's. -/
theorem formatter_dangling_fence_counterexample :
    Frontmatter.countTriple (str "a\n```") % 2 = 1 ∧
    Formatter.wrap_code_blocks (str "a\n```") = str "a\n```" ∧
    Frontmatter.countTriple (Formatter.wrap_code_blocks (str "a\n```")) =
      Frontmatter.countTriple (str "a\n```") := by
  refine ⟨by decide, by decide, by decide⟩

/-- Claim C8 (code_bug): `embed_ollama` does put a `None` at the failed
item's position and embeds the rest of the batch, and the rows reaching
the upsert of `cli.main` are exactly one per batch item with no test on
the embedding — the pair with the `None` vector is among them.  The
exclusion the spec describes is implemented by `storage.build_chroma`
(modelled by `build_chroma_pairs`), which the CLI pipeline never calls. -/
theorem cli_upsert_retains_null_embeddings :
    (∀ {V : Type} (embedOne : Str → Option V) (batch : List Str),
      embed_ollama embedOne batch = batch.map embedOne) ∧
    process_batch (fun t => if t = str "bad" then none else some (0 : Nat))
        [str "bad", str "ok"] =
      [(str "bad", (none : Option Nat)), (str "ok", some 0)] ∧
    build_chroma_pairs
        (process_batch (fun t => if t = str "bad" then none else some (0 : Nat))
          [str "bad", str "ok"]) = [(str "ok", 0)] := by
  refine ⟨?_, by decide, by decide⟩
  intro V embedOne batch
  induction batch with
  | nil => rfl
  | cons t ts ih => simp [embed_ollama, ih]

end IngestForRag
